import Mathlib

/-!
# Verification of the `slotgraph` repository

This file embeds the repository's data structures in Lean 4 and proves
properties of its specification against them.

The repository contains two graph structures:

* `src/slotgraph.rs`: a two-arena `SlotGraph` whose node arena and edge
  arena are `slotmap::SlotMap`s.  An edge value stores its two endpoint
  node keys together with the user value.
* `src/lib.rs`: an adjacency-list `SlotGraph` with a single node arena
  plus two `slotmap::SecondaryMap`s holding incoming/outgoing neighbour
  lists.
* `examples/adj_graph.rs`: an `AdjGraph` index wrapping the two-arena
  graph with per-node `(edge key, neighbour key)` adjacency lists.

The `slotmap` crate itself is an external dependency whose sources are
not part of the repository, so its arena is modelled from the spec:
a generational slot arena (spec §3, §4.1) where each slot carries a
generation counter, occupied slots have odd generation, insertion pops
the free list and bumps the slot generation (even to odd), removal
clears the payload, bumps the generation (odd to even) and pushes the
slot on the free list, and lookups succeed only when the key generation
matches the slot generation.  Generations are `Nat` (the crate uses
`u32` with a documented count ceiling of `2^32 - 2`; the ceiling panic
is outside the per-operation semantics modelled here).
-/

namespace Slotgraph

/-- A generational key: slot index plus generation, as in `slotmap`.
Modelled from the spec: "an opaque value composed of a slot index and a
generation counter. Two handles are equal iff both fields match." -/
structure SKey where
  idx : Nat
  ver : Nat
deriving DecidableEq, Repr

/-- One slot of a generational arena: its current generation and its
payload (`none` when the slot is vacant).  Occupied slots have odd
generation, vacant slots even. -/
structure Slot (α : Type) where
  version : Nat
  value : Option α
deriving DecidableEq, Repr

/-- The generational slot arena.  Modelled from the spec (§3, §4.1), in
place of the external `slotmap::SlotMap`: a sequence of slots plus a
free list of vacant slot indices. -/
structure SM (α : Type) where
  slots : List (Slot α)
  free : List Nat
deriving DecidableEq, Repr

/-- The empty arena. -/
def smEmpty {α : Type} : SM α := ⟨[], []⟩

/-- `SlotMap::insert`: reuse the head of the free list (bumping that
slot's generation from even to odd), or append a fresh slot with
generation 1.  The returned key carries the new generation.  The
out-of-range guard on the free-list head is unreachable in the crate
(its free list only ever holds valid indices, cf. `SMWF`). -/
def smInsert {α : Type} (m : SM α) (v : α) : SM α × SKey :=
  match m.free with
  | i :: rest =>
      if h : i < m.slots.length then
        let ver := (m.slots.get ⟨i, h⟩).version + 1
        (⟨m.slots.set i ⟨ver, some v⟩, rest⟩, ⟨i, ver⟩)
      else
        (⟨m.slots ++ [⟨1, some v⟩], rest⟩, ⟨m.slots.length, 1⟩)
  | [] => (⟨m.slots ++ [⟨1, some v⟩], []⟩, ⟨m.slots.length, 1⟩)

/-- The vacant default slot, returned by out-of-range reads; its
generation 0 never matches an issued key and its payload is empty,
so an out-of-range lookup reads as absent, as in the bounds-checked
crate code. -/
def noSlot {α : Type} : Slot α := ⟨0, none⟩

/-- `SlotMap::get`: the payload, provided the key's generation matches
the slot's current generation. -/
def smGet {α : Type} (m : SM α) (k : SKey) : Option α :=
  if (m.slots.getD k.idx noSlot).version = k.ver then (m.slots.getD k.idx noSlot).value
  else none

/-- `SlotMap::remove`: if the key designates a live slot, clear the
payload, bump the generation and push the index on the free list;
otherwise return the arena unchanged with `none`. -/
def smRemove {α : Type} (m : SM α) (k : SKey) : SM α × Option α :=
  if (m.slots.getD k.idx noSlot).version = k.ver then
    match (m.slots.getD k.idx noSlot).value with
    | some v =>
        (⟨m.slots.set k.idx ⟨(m.slots.getD k.idx noSlot).version + 1, none⟩,
          k.idx :: m.free⟩, some v)
    | none => (m, none)
  else (m, none)

/-- `SlotMap::get_mut` followed by a caller-side update of the payload:
the payload is replaced in place, the generation is untouched. -/
def smModify {α : Type} (m : SM α) (k : SKey) (f : α → α) : SM α :=
  if (m.slots.getD k.idx noSlot).version = k.ver then
    match (m.slots.getD k.idx noSlot).value with
    | some v =>
        ⟨m.slots.set k.idx ⟨(m.slots.getD k.idx noSlot).version, some (f v)⟩, m.free⟩
    | none => m
  else m

/-- `SlotMap::iter_mut` followed by a caller-side update of every
payload: every live payload is replaced, generations untouched. -/
def smMapAll {α : Type} (m : SM α) (f : α → α) : SM α :=
  ⟨m.slots.map (fun s => ⟨s.version, s.value.map f⟩), m.free⟩

/-- `SlotMap::len`: number of occupied slots. -/
def smLen {α : Type} (m : SM α) : Nat :=
  (m.slots.filter (fun s => s.value.isSome)).length

/-- `SlotMap::contains_key`. -/
def smContains {α : Type} (m : SM α) (k : SKey) : Bool :=
  (smGet m k).isSome

/-- A key is stale for an arena when its slot exists but the slot's
generation has moved past the key's generation: the state every issued
key enters when it is removed. -/
def Stale {α : Type} (m : SM α) (k : SKey) : Prop :=
  k.idx < m.slots.length ∧ k.ver < (m.slots.getD k.idx noSlot).version

instance {α : Type} (m : SM α) (k : SKey) : Decidable (Stale m k) :=
  inferInstanceAs (Decidable (_ ∧ _))

/-- Representation invariant of the arena (maintained internally by the
`slotmap` crate): the free list has no duplicates and every free index
is a vacant in-range slot. -/
def SMWF {α : Type} (m : SM α) : Prop :=
  m.free.Nodup ∧ ∀ i ∈ m.free, i < m.slots.length ∧ (m.slots.getD i noSlot).value = none

instance {α : Type} [DecidableEq α] (m : SM α) : Decidable (SMWF m) :=
  inferInstanceAs (Decidable (_ ∧ _))

/-- A single insert or remove operation on one arena. -/
inductive SMOp (α : Type) where
  | ins (v : α)
  | rem (k : SKey)
deriving DecidableEq

/-- Apply one arena operation, keeping the resulting arena. -/
def smStep {α : Type} (m : SM α) : SMOp α → SM α
  | .ins v => (smInsert m v).1
  | .rem k => (smRemove m k).1

/-- Apply a finite sequence of arena operations. -/
def smRun {α : Type} (m : SM α) : List (SMOp α) → SM α
  | [] => m
  | op :: ops => smRun (smStep m op) ops

/-- `EdgeValue` of `src/slotgraph.rs`: the two endpoint node keys
(`from`, `to`) stored alongside the user value. -/
structure EdgeValue (E : Type) where
  fromN : SKey
  toN : SKey
  value : E
deriving DecidableEq, Repr

/-- The two-arena `SlotGraph` of `src/slotgraph.rs`: independent node
and edge arenas. -/
structure SlotGraph (N E : Type) where
  nodes : SM N
  edges : SM (EdgeValue E)
deriving DecidableEq, Repr

/-- `SlotGraph::new`. -/
def sgEmpty {N E : Type} : SlotGraph N E := ⟨smEmpty, smEmpty⟩

/-- `SlotGraph::insert_node`. -/
def insertNode {N E : Type} (g : SlotGraph N E) (v : N) : SlotGraph N E × SKey :=
  let p := smInsert g.nodes v
  ({ g with nodes := p.1 }, p.2)

/-- `SlotGraph::remove_node`. -/
def removeNode {N E : Type} (g : SlotGraph N E) (k : SKey) : SlotGraph N E × Option N :=
  let p := smRemove g.nodes k
  ({ g with nodes := p.1 }, p.2)

/-- `SlotGraph::get_node`. -/
def getNode {N E : Type} (g : SlotGraph N E) (k : SKey) : Option N :=
  smGet g.nodes k

/-- `SlotGraph::node_len`. -/
def nodeLen {N E : Type} (g : SlotGraph N E) : Nat := smLen g.nodes

/-- `SlotGraph::insert_edge`: stores `from`/`to` exactly as given,
without any liveness validation of the endpoints. -/
def insertEdge {N E : Type} (g : SlotGraph N E) (f t : SKey) (v : E) :
    SlotGraph N E × SKey :=
  let p := smInsert g.edges ⟨f, t, v⟩
  ({ g with edges := p.1 }, p.2)

/-- `SlotGraph::remove_edge`. -/
def removeEdge {N E : Type} (g : SlotGraph N E) (k : SKey) : SlotGraph N E × Option E :=
  let p := smRemove g.edges k
  ({ g with edges := p.1 }, (p.2).map EdgeValue.value)

/-- `SlotGraph::get_edge`. -/
def getEdge {N E : Type} (g : SlotGraph N E) (k : SKey) : Option E :=
  (smGet g.edges k).map EdgeValue.value

/-- `SlotGraph::get_edge_nodes`. -/
def getEdgeNodes {N E : Type} (g : SlotGraph N E) (k : SKey) : Option (SKey × SKey) :=
  (smGet g.edges k).map (fun e => (e.fromN, e.toN))

/-- `SlotGraph::edge_len`. -/
def edgeLen {N E : Type} (g : SlotGraph N E) : Nat := smLen g.edges

/-- One mutating operation of the two-arena `SlotGraph` API.  The
`mut*` constructors model `get_node_mut`/`get_edge_mut` (the caller
rewrites the returned payload) and `iter_nodes_mut`/`iter_edges_mut`
(the caller rewrites every payload); `get_edge_mut` exposes only the
user value of an edge, never its endpoints. -/
inductive GOp (N E : Type) where
  | insNode (v : N)
  | remNode (k : SKey)
  | insEdge (f t : SKey) (v : E)
  | remEdge (k : SKey)
  | mutNode (k : SKey) (f : N → N)
  | mutEdge (k : SKey) (f : E → E)
  | mutAllNodes (f : N → N)
  | mutAllEdges (f : E → E)

/-- Apply one graph operation, keeping the resulting graph. -/
def gStep {N E : Type} (g : SlotGraph N E) : GOp N E → SlotGraph N E
  | .insNode v => (insertNode g v).1
  | .remNode k => (removeNode g k).1
  | .insEdge f t v => (insertEdge g f t v).1
  | .remEdge k => (removeEdge g k).1
  | .mutNode k f => { g with nodes := smModify g.nodes k f }
  | .mutEdge k f => { g with edges := smModify g.edges k (fun e => ⟨e.fromN, e.toN, f e.value⟩) }
  | .mutAllNodes f => { g with nodes := smMapAll g.nodes f }
  | .mutAllEdges f => { g with edges := smMapAll g.edges (fun e => ⟨e.fromN, e.toN, f e.value⟩) }

/-- Apply a finite sequence of graph operations. -/
def gRun {N E : Type} (g : SlotGraph N E) : List (GOp N E) → SlotGraph N E
  | [] => g
  | op :: ops => gRun (gStep g op) ops

/-- Model of `slotmap::SecondaryMap` (external dependency, modelled
from the spec's "auxiliary maps" keyed by handles): at most one entry
per slot index, each entry carrying the generation of the key that
stored it; lookups succeed only when the key's generation matches the
entry's stored generation. -/
abbrev SecMap (β : Type) : Type := List (Nat × Nat × β)

/-- `SecondaryMap::new`. -/
def secEmpty {β : Type} : SecMap β := []

/-- `SecondaryMap::get`: the entry at the key's index, provided the
stored generation matches the key's generation. -/
def secGet {β : Type} : SecMap β → SKey → Option β
  | [], _ => none
  | (i, w, b) :: rest, k =>
      if i = k.idx then (if w = k.ver then some b else none) else secGet rest k

/-- `SecondaryMap::insert` (also the effect of `get_mut` followed by a
caller-side update): replace the entry at the key's index, stamping it
with the key's generation, or add a fresh entry. -/
def secSet {β : Type} : SecMap β → SKey → β → SecMap β
  | [], k, b => [(k.idx, k.ver, b)]
  | (i, w, x) :: rest, k, b =>
      if i = k.idx then (i, k.ver, b) :: rest else (i, w, x) :: secSet rest k b

/-- `Vec::swap_remove i`: replace the element at `i` with the last
element and pop the last element. -/
def swapRemove {β : Type} (l : List β) (i : Nat) : List β :=
  match l.getLast? with
  | none => l
  | some a => (l.set i a).dropLast

/-- The `AdjGraph` of `examples/adj_graph.rs`: the two-arena graph plus
incoming/outgoing adjacency lists of `(edge key, neighbour key)` pairs. -/
structure AdjGraph (N E : Type) where
  sg : SlotGraph N E
  adjIn : SecMap (List (SKey × SKey))
  adjOut : SecMap (List (SKey × SKey))

/-- `AdjGraph::with_key`. -/
def adjEmpty {N E : Type} : AdjGraph N E := ⟨sgEmpty, secEmpty, secEmpty⟩

/-- `AdjGraph::insert_node`: delegate to the base graph, then register
empty adjacency lists for the new key. -/
def adjInsertNode {N E : Type} (ag : AdjGraph N E) (v : N) : AdjGraph N E × SKey :=
  let p := insertNode ag.sg v
  (⟨p.1, secSet ag.adjIn p.2 [], secSet ag.adjOut p.2 []⟩, p.2)

/-- `AdjGraph::insert_edge`: delegate to the base graph, then append
`(edge key, to)` to `from`'s outgoing list and `(edge key, from)` to
`to`'s incoming list.  The source unwraps the two adjacency lookups;
`none` models the `unwrap` panic on a node key the index does not
track. -/
def adjInsertEdge {N E : Type} (ag : AdjGraph N E) (f t : SKey) (v : E) :
    Option (AdjGraph N E × SKey) :=
  let p := insertEdge ag.sg f t v
  match secGet ag.adjOut f with
  | none => none
  | some lo =>
      match secGet ag.adjIn t with
      | none => none
      | some li =>
          some (⟨p.1, secSet ag.adjIn t (li ++ [(p.2, f)]),
                 secSet ag.adjOut f (lo ++ [(p.2, t)])⟩, p.2)

/-- `AdjGraph::out_edges`: the edge keys pointing from the given node. -/
def outEdges {N E : Type} (ag : AdjGraph N E) (f : SKey) : Option (List SKey) :=
  (secGet ag.adjOut f).map (fun l => l.map Prod.fst)

/-- `AdjGraph::out_nodes`: the node keys pointed to from the given node. -/
def outNodes {N E : Type} (ag : AdjGraph N E) (f : SKey) : Option (List SKey) :=
  (secGet ag.adjOut f).map (fun l => l.map Prod.snd)

/-- `AdjGraph::in_edges`: the edge keys pointing to the given node. -/
def inEdges {N E : Type} (ag : AdjGraph N E) (t : SKey) : Option (List SKey) :=
  (secGet ag.adjIn t).map (fun l => l.map Prod.fst)

/-- `AdjGraph::in_nodes`: the node keys pointing to the given node. -/
def inNodes {N E : Type} (ag : AdjGraph N E) (t : SKey) : Option (List SKey) :=
  (secGet ag.adjIn t).map (fun l => l.map Prod.snd)

/-- Calls made exclusively through the `AdjGraph` index: a node
insertion, or an edge insertion whose endpoints are designated by the
positions of earlier `insert_node` results (so only index-issued keys
are ever passed to `insert_edge`). -/
inductive AGOp (N E : Type) where
  | insN (v : N)
  | insE (i j : Nat) (v : E)
deriving DecidableEq

/-- State of a client session against the index: the graph plus the
node keys returned by `insert_node`, in order. -/
structure AGSt (N E : Type) where
  ag : AdjGraph N E
  ns : List SKey

/-- Run one index call.  Edge insertions whose endpoint positions do
not refer to earlier results are not calls made through the index and
leave the state unchanged; the panic case of `adjInsertEdge` is
unreachable for index-issued keys (proved below). -/
def agStep {N E : Type} (st : AGSt N E) : AGOp N E → AGSt N E
  | .insN v =>
      let p := adjInsertNode st.ag v
      ⟨p.1, st.ns ++ [p.2]⟩
  | .insE i j v =>
      match st.ns.get? i, st.ns.get? j with
      | some f, some t =>
          match adjInsertEdge st.ag f t v with
          | some (ag, _) => ⟨ag, st.ns⟩
          | none => st
      | _, _ => st

/-- Run a finite sequence of index calls from the empty index. -/
def agRun {N E : Type} (ops : List (AGOp N E)) : AGSt N E :=
  ops.foldl agStep ⟨adjEmpty, []⟩

/-- Endpoint view of the edge slot at index `j` of the two-arena
graph. -/
def edgeFT {N E : Type} (g : SlotGraph N E) (j : Nat) : Option (SKey × SKey) :=
  (g.edges.slots.getD j noSlot).value.map (fun ev => (ev.fromN, ev.toN))

/-- Shape of the outgoing adjacency list of node `⟨i, 1⟩` in a
reachable index state: every entry pairs a live edge key (generation 1,
in range) with that edge's `to` endpoint, the edge's `from` endpoint is
`⟨i, 1⟩`, and entries appear in edge-creation order (strictly
increasing edge indices, since each insertion appends the freshly
issued edge key). -/
def OutOK {N E : Type} (g : SlotGraph N E) (i : Nat) (l : List (SKey × SKey)) : Prop :=
  (∀ p ∈ l, p.1.ver = 1 ∧ p.1.idx < g.edges.slots.length ∧
    edgeFT g p.1.idx = some (⟨i, 1⟩, p.2)) ∧
  (l.map (fun p => p.1.idx)).Pairwise (· < ·)

/-- Shape of the incoming adjacency list of node `⟨i, 1⟩` in a
reachable index state, mirror of `OutOK`. -/
def InOK {N E : Type} (g : SlotGraph N E) (i : Nat) (l : List (SKey × SKey)) : Prop :=
  (∀ p ∈ l, p.1.ver = 1 ∧ p.1.idx < g.edges.slots.length ∧
    edgeFT g p.1.idx = some (p.2, ⟨i, 1⟩)) ∧
  (l.map (fun p => p.1.idx)).Pairwise (· < ·)

/-- Invariant of reachable `AdjGraph` index states: the issued node
keys are exactly `⟨0, 1⟩ … ⟨n-1, 1⟩`, both arenas have empty free lists
(the index offers no removal), every edge slot is occupied at
generation 1, every issued node key is tracked with a well-shaped
adjacency list, and every live edge occurs exactly once in its `from`
node's outgoing list (paired with `to`) and exactly once in its `to`
node's incoming list (paired with `from`). -/
def AGInv {N E : Type} (st : AGSt N E) : Prop :=
  st.ns = (List.range st.ag.sg.nodes.slots.length).map (fun i => (⟨i, 1⟩ : SKey)) ∧
  st.ag.sg.nodes.free = [] ∧
  st.ag.sg.edges.free = [] ∧
  (∀ s ∈ st.ag.sg.edges.slots, s.version = 1 ∧ s.value.isSome = true) ∧
  (∀ i, i < st.ag.sg.nodes.slots.length →
    ∃ l, secGet st.ag.adjOut ⟨i, 1⟩ = some l ∧ OutOK st.ag.sg i l) ∧
  (∀ i, i < st.ag.sg.nodes.slots.length →
    ∃ l, secGet st.ag.adjIn ⟨i, 1⟩ = some l ∧ InOK st.ag.sg i l) ∧
  (∀ j, j < st.ag.sg.edges.slots.length → ∀ ev,
    (st.ag.sg.edges.slots.getD j noSlot).value = some ev →
      ev.fromN.ver = 1 ∧ ev.fromN.idx < st.ag.sg.nodes.slots.length ∧
      ev.toN.ver = 1 ∧ ev.toN.idx < st.ag.sg.nodes.slots.length ∧
      (∀ lf, secGet st.ag.adjOut ev.fromN = some lf → lf.count (⟨j, 1⟩, ev.toN) = 1) ∧
      (∀ lt, secGet st.ag.adjIn ev.toN = some lt → lt.count (⟨j, 1⟩, ev.fromN) = 1))

/-- The adjacency-list `SlotGraph` of `src/lib.rs`: one node arena plus
incoming/outgoing neighbour lists in two secondary maps. -/
structure LibGraph (V : Type) where
  nodes : SM V
  adjIn : SecMap (List SKey)
  adjOut : SecMap (List SKey)

namespace Lib

/-- `SlotGraph::new` of `src/lib.rs`. -/
def libEmpty {V : Type} : LibGraph V := ⟨smEmpty, secEmpty, secEmpty⟩

/-- `SlotGraph::get` of `src/lib.rs`. -/
def get {V : Type} (g : LibGraph V) (k : SKey) : Option V := smGet g.nodes k

/-- `SlotGraph::insert_node` of `src/lib.rs`: insert the value and
register empty incoming/outgoing lists for the new key. -/
def insertNode {V : Type} (g : LibGraph V) (v : V) : LibGraph V × SKey :=
  let p := smInsert g.nodes v
  (⟨p.1, secSet g.adjIn p.2 [], secSet g.adjOut p.2 []⟩, p.2)

/-- `SlotGraph::contains_node` of `src/lib.rs`. -/
def containsNode {V : Type} (g : LibGraph V) (k : SKey) : Bool := smContains g.nodes k

/-- `SlotGraph::insert_edge` of `src/lib.rs`: push `to` on `from`'s
outgoing list and `from` on `to`'s incoming list; error with the
offending key when either list is untracked, mutating nothing. -/
def insertEdge {V : Type} (g : LibGraph V) (f t : SKey) : Except SKey (LibGraph V) :=
  match secGet g.adjOut f with
  | none => .error f
  | some lo =>
      match secGet g.adjIn t with
      | none => .error t
      | some li =>
          .ok ⟨g.nodes, secSet g.adjIn t (li ++ [f]), secSet g.adjOut f (lo ++ [t])⟩

/-- `SlotGraph::contains_edge` of `src/lib.rs`, verbatim: it tests
whether `from` occurs in `from`'s outgoing list (the source compares
`n == from`, not `n == to`, and never uses `to`). -/
def containsEdge {V : Type} (g : LibGraph V) (f t : SKey) : Bool :=
  match secGet g.adjOut f with
  | none => false
  | some lo => lo.any (fun n => n = f)

/-- `SlotGraph::remove_edge` of `src/lib.rs`: when `to` occurs in
`from`'s outgoing list and `from` occurs in `to`'s incoming list,
swap-remove one occurrence from each; otherwise change nothing. -/
def removeEdge {V : Type} (g : LibGraph V) (f t : SKey) : Except SKey (LibGraph V) :=
  match secGet g.adjOut f with
  | none => .error f
  | some lo =>
      match secGet g.adjIn t with
      | none => .error t
      | some li =>
          match lo.findIdx? (fun n => n = t) with
          | some io =>
              match li.findIdx? (fun n => n = f) with
              | some ii =>
                  .ok ⟨g.nodes, secSet g.adjIn t (swapRemove li ii),
                       secSet g.adjOut f (swapRemove lo io)⟩
              | none => .ok g
          | none => .ok g

/-- `SlotGraph::iter_in` of `src/lib.rs`: the stored incoming list. -/
def iterIn {V : Type} (g : LibGraph V) (k : SKey) : Option (List SKey) :=
  secGet g.adjIn k

/-- `SlotGraph::iter_out` of `src/lib.rs`: the stored outgoing list. -/
def iterOut {V : Type} (g : LibGraph V) (k : SKey) : Option (List SKey) :=
  secGet g.adjOut k

/-- One public mutating call of `src/lib.rs`. -/
inductive LibOp (V : Type) where
  | insN (v : V)
  | insE (f t : SKey)
  | remE (f t : SKey)
deriving DecidableEq

/-- Apply one call, keeping the resulting graph (an `Err` mutates
nothing, as in the source). -/
def libStep {V : Type} (g : LibGraph V) : LibOp V → LibGraph V
  | .insN v => (insertNode g v).1
  | .insE f t =>
      match insertEdge g f t with
      | .ok g2 => g2
      | .error _ => g
  | .remE f t =>
      match removeEdge g f t with
      | .ok g2 => g2
      | .error _ => g

/-- Run a finite sequence of calls from the empty graph. -/
def libRun {V : Type} (ops : List (LibOp V)) : LibGraph V :=
  ops.foldl libStep libEmpty

/-- Number of occurrences of `b` in `a`'s outgoing list (zero when the
list is untracked). -/
def countOut {V : Type} (g : LibGraph V) (a b : SKey) : Nat :=
  ((secGet g.adjOut a).getD []).count b

/-- Number of occurrences of `a` in `b`'s incoming list (zero when the
list is untracked). -/
def countIn {V : Type} (g : LibGraph V) (b a : SKey) : Nat :=
  ((secGet g.adjIn b).getD []).count a

/-- Number of occurrences of `b` in `a`'s outgoing list equals the
number of occurrences of `a` in `b`'s incoming list, for all keys: the
matched-pair adjacency invariant of `src/lib.rs`. -/
def countInv {V : Type} (g : LibGraph V) : Prop :=
  ∀ a b : SKey, countOut g a b = countIn g b a

/-- Representation facts of the secondary maps of reachable
`src/lib.rs` graphs (no node removal exists there, so every tracked
index is below the arena size, every stored generation is 1, and every
listed neighbour key is a tracked key): entry bounds plus totality on
issued keys. -/
def SecWFL (m : SecMap (List SKey)) (n : Nat) : Prop :=
  (∀ e ∈ m, e.1 < n ∧ e.2.1 = 1 ∧ ∀ k ∈ e.2.2, k.idx < n ∧ k.ver = 1) ∧
  (∀ i, i < n → ∃ l, secGet m ⟨i, 1⟩ = some l)

/-- Representation invariant of reachable `src/lib.rs` graphs. -/
def LibWF {V : Type} (g : LibGraph V) : Prop :=
  g.nodes.free = [] ∧ (∀ s ∈ g.nodes.slots, s.version = 1) ∧
  SecWFL g.adjIn g.nodes.slots.length ∧ SecWFL g.adjOut g.nodes.slots.length

end Lib

/-! ## Lemmas about the slot arena -/

section ArenaLemmas

variable {α : Type}

theorem getD_set_self (l : List α) (i : Nat) (h : i < l.length) (a d : α) :
    (l.set i a).getD i d = a := by
  rw [List.getD_eq_getElem (l.set i a) d (by simpa using h)]
  exact List.getElem_set_self (by simpa using h)

theorem getD_set_ne (l : List α) {i j : Nat} (hij : i ≠ j) (a d : α) :
    (l.set i a).getD j d = l.getD j d := by
  rcases Nat.lt_or_ge j l.length with hj | hj
  · rw [List.getD_eq_getElem (l.set i a) d (by simpa using hj),
      List.getD_eq_getElem l d hj]
    exact List.getElem_set_ne hij _
  · rw [List.getD_eq_default (l.set i a) d (by simpa using hj),
      List.getD_eq_default l d hj]

theorem getD_append_self (l : List α) (a d : α) :
    (l ++ [a]).getD l.length d = a := by
  rw [List.getD_append_right l [a] d l.length le_rfl]
  simp

theorem getD_append_lt (l l2 : List α) {i : Nat} (h : i < l.length) (d : α) :
    (l ++ l2).getD i d = l.getD i d :=
  List.getD_append l l2 d i h

theorem smGet_idx_lt {m : SM α} {k : SKey} {v : α} (h : smGet m k = some v) :
    k.idx < m.slots.length := by
  by_contra hge
  push_neg at hge
  unfold smGet at h
  rw [List.getD_eq_default m.slots noSlot hge] at h
  simp [noSlot] at h

theorem smGet_spec {m : SM α} {k : SKey} {v : α} (h : smGet m k = some v) :
    (m.slots.getD k.idx noSlot).version = k.ver ∧
      (m.slots.getD k.idx noSlot).value = some v := by
  unfold smGet at h
  split at h
  · exact ⟨by assumption, h⟩
  · exact absurd h (by simp)

theorem smGet_of_spec {m : SM α} {k : SKey} {v : α}
    (hver : (m.slots.getD k.idx noSlot).version = k.ver)
    (hval : (m.slots.getD k.idx noSlot).value = some v) :
    smGet m k = some v := by
  unfold smGet
  rw [if_pos hver]
  exact hval

theorem smInsert_get (m : SM α) (v : α) :
    smGet (smInsert m v).1 (smInsert m v).2 = some v := by
  unfold smInsert
  cases hf : m.free with
  | nil =>
      simp only []
      exact smGet_of_spec (by rw [getD_append_self]) (by rw [getD_append_self])
  | cons i rest =>
      by_cases hi : i < m.slots.length
      · simp only [dif_pos hi]
        exact smGet_of_spec (by rw [getD_set_self _ _ hi]) (by rw [getD_set_self _ _ hi])
      · simp only [dif_neg hi]
        exact smGet_of_spec (by rw [getD_append_self]) (by rw [getD_append_self])

theorem smInsert_length_le (m : SM α) (v : α) :
    m.slots.length ≤ (smInsert m v).1.slots.length := by
  unfold smInsert
  cases m.free with
  | nil => simp
  | cons i rest =>
      by_cases hi : i < m.slots.length
      · simp [dif_pos hi]
      · simp [dif_neg hi]

theorem smRemove_length_le (m : SM α) (k : SKey) :
    m.slots.length ≤ (smRemove m k).1.slots.length := by
  unfold smRemove
  split
  · split
    · simp
    · exact le_rfl
  · exact le_rfl

theorem smStep_length_le (m : SM α) (op : SMOp α) :
    m.slots.length ≤ (smStep m op).slots.length := by
  cases op with
  | ins v => exact smInsert_length_le m v
  | rem k => exact smRemove_length_le m k

theorem smInsert_version_le (m : SM α) (v : α) (i : Nat) :
    (m.slots.getD i noSlot).version ≤ ((smInsert m v).1.slots.getD i noSlot).version := by
  rcases Nat.lt_or_ge i m.slots.length with hi | hi
  · unfold smInsert
    cases m.free with
    | nil => rw [getD_append_lt _ _ hi]
    | cons j rest =>
        by_cases hj : j < m.slots.length
        · simp only [dif_pos hj]
          by_cases hne : j = i
          · subst hne
            rw [getD_set_self _ _ hj, List.getD_eq_getElem m.slots noSlot hj,
              List.get_eq_getElem]
            exact Nat.le_succ _
          · rw [getD_set_ne _ hne]
        · simp only [dif_neg hj]
          rw [getD_append_lt _ _ hi]
  · rw [List.getD_eq_default m.slots noSlot hi]
    exact Nat.zero_le _

theorem smRemove_version_le (m : SM α) (k : SKey) (i : Nat) :
    (m.slots.getD i noSlot).version ≤ ((smRemove m k).1.slots.getD i noSlot).version := by
  unfold smRemove
  split
  · split
    · simp only []
      by_cases hne : k.idx = i
      · subst hne
        rcases Nat.lt_or_ge k.idx m.slots.length with hk | hk
        · rw [getD_set_self _ _ hk]
          exact Nat.le_succ _
        · rw [List.set_eq_of_length_le hk]
      · rw [getD_set_ne _ hne]
    · exact le_rfl
  · exact le_rfl

theorem smStep_version_le (m : SM α) (op : SMOp α) (i : Nat) :
    (m.slots.getD i noSlot).version ≤ ((smStep m op).slots.getD i noSlot).version := by
  cases op with
  | ins v => exact smInsert_version_le m v i
  | rem k => exact smRemove_version_le m k i

theorem SMWF_smInsert {m : SM α} (h : SMWF m) (v : α) : SMWF (smInsert m v).1 := by
  unfold smInsert
  cases hf : m.free with
  | nil => exact ⟨List.nodup_nil, by simp⟩
  | cons i rest =>
      have hmem : ∀ j ∈ m.free, j < m.slots.length ∧ (m.slots.getD j noSlot).value = none :=
        h.2
      rw [hf] at hmem
      have hnd : (i :: rest).Nodup := hf ▸ h.1
      have hi : i < m.slots.length := (hmem i (List.mem_cons_self i rest)).1
      simp only [dif_pos hi]
      refine ⟨hnd.of_cons, fun j hj => ?_⟩
      have hji : j ≠ i := fun he => (List.nodup_cons.mp hnd).1 (he ▸ hj)
      have hj2 := hmem j (List.mem_cons_of_mem i hj)
      refine ⟨by simpa using hj2.1, ?_⟩
      rw [getD_set_ne _ (Ne.symm hji)]
      exact hj2.2

theorem SMWF_smRemove {m : SM α} (h : SMWF m) (k : SKey) : SMWF (smRemove m k).1 := by
  unfold smRemove
  split
  · split
    · rename_i hver v hval
      have hk : k.idx < m.slots.length := by
        rcases Nat.lt_or_ge k.idx m.slots.length with hlt | hge
        · exact hlt
        · rw [List.getD_eq_default m.slots noSlot hge] at hval
          exact absurd hval (by simp [noSlot])
      have hnotfree : k.idx ∉ m.free := fun hmem => by
        have := (h.2 k.idx hmem).2
        rw [this] at hval
        exact Option.noConfusion hval
      refine ⟨List.nodup_cons.mpr ⟨hnotfree, h.1⟩, fun j hj => ?_⟩
      rcases List.mem_cons.mp hj with rfl | hj2
      · exact ⟨by simpa using hk, by rw [getD_set_self _ _ hk]⟩
      · have hji : j ≠ k.idx := fun he => hnotfree (he ▸ hj2)
        refine ⟨by simpa using (h.2 j hj2).1, ?_⟩
        rw [getD_set_ne _ (Ne.symm hji)]
        exact (h.2 j hj2).2
    · exact h
  · exact h

theorem smGet_congr {m m' : SM α} (k : SKey)
    (h : m.slots.getD k.idx noSlot = m'.slots.getD k.idx noSlot) :
    smGet m k = smGet m' k := by
  unfold smGet
  rw [h]

theorem smGet_none_of_vermismatch {m : SM α} {k : SKey}
    (h : (m.slots.getD k.idx noSlot).version ≠ k.ver) : smGet m k = none := by
  unfold smGet
  rw [if_neg h]

theorem smGet_smInsert_of_live {m : SM α} (hwf : SMWF m) {k : SKey} {v : α}
    (h : smGet m k = some v) (w : α) : smGet (smInsert m w).1 k = some v := by
  have hk := smGet_idx_lt h
  have hspec := smGet_spec h
  unfold smInsert
  cases hf : m.free with
  | nil =>
      refine Eq.trans ?_ h
      exact smGet_congr k (getD_append_lt m.slots [⟨1, some w⟩] hk noSlot)
  | cons i rest =>
      have hi : i < m.slots.length := (hwf.2 i (hf ▸ List.mem_cons_self i rest)).1
      have hivac : (m.slots.getD i noSlot).value = none :=
        (hwf.2 i (hf ▸ List.mem_cons_self i rest)).2
      have hne : i ≠ k.idx := fun he => by
        rw [he, hspec.2] at hivac
        exact Option.noConfusion hivac
      simp only [dif_pos hi]
      refine Eq.trans ?_ h
      exact smGet_congr k (getD_set_ne m.slots hne _ noSlot)

theorem smGet_smRemove_other {m : SM α} {k k' : SKey} {v : α}
    (h : smGet m k' = some v) (hne : k ≠ k') : smGet (smRemove m k).1 k' = some v := by
  have hspec := smGet_spec h
  unfold smRemove
  by_cases hver : (m.slots.getD k.idx noSlot).version = k.ver
  · rw [if_pos hver]
    rcases hval : (m.slots.getD k.idx noSlot).value with _ | w
    · exact h
    · simp only []
      by_cases hidx : k.idx = k'.idx
      · exfalso
        rw [hidx, hspec.1] at hver
        exact hne (by cases k; cases k'; simp_all)
      · refine Eq.trans ?_ h
        exact smGet_congr k' (getD_set_ne m.slots hidx _ noSlot)
  · rw [if_neg hver]
    exact h

theorem smGet_smModify (m : SM α) (k : SKey) (f : α → α) (k' : SKey) :
    smGet (smModify m k f) k' = if k' = k then (smGet m k').map f else smGet m k' := by
  unfold smModify
  by_cases hver : (m.slots.getD k.idx noSlot).version = k.ver
  · rw [if_pos hver]
    rcases hval : (m.slots.getD k.idx noSlot).value with _ | v
    · by_cases hk' : k' = k
      · subst hk'
        have hnone : smGet m k' = none := by
          unfold smGet
          rw [if_pos hver]
          exact hval
        rw [if_pos rfl, hnone]
        rfl
      · rw [if_neg hk']
    · simp only []
      have hk : k.idx < m.slots.length := by
        rcases Nat.lt_or_ge k.idx m.slots.length with hlt | hge
        · exact hlt
        · rw [List.getD_eq_default m.slots noSlot hge] at hval
          exact absurd hval (by simp [noSlot])
      by_cases hk' : k' = k
      · subst hk'
        rw [if_pos rfl, smGet_of_spec hver hval]
        refine smGet_of_spec ?_ ?_
        · show ((m.slots.set k'.idx _).getD k'.idx noSlot).version = k'.ver
          rw [getD_set_self _ _ hk]
          exact hver
        · show ((m.slots.set k'.idx _).getD k'.idx noSlot).value = some (f v)
          rw [getD_set_self _ _ hk]
      · rw [if_neg hk']
        by_cases hidx : k.idx = k'.idx
        · have hverne : (m.slots.getD k'.idx noSlot).version ≠ k'.ver := by
            rw [← hidx, hver]
            intro he
            exact hk' (by cases k; cases k'; simp_all)
          rw [smGet_none_of_vermismatch hverne]
          refine smGet_none_of_vermismatch ?_
          show ((m.slots.set k.idx _).getD k'.idx noSlot).version ≠ k'.ver
          rw [← hidx, getD_set_self _ _ hk, hver]
          rw [← hidx, hver] at hverne
          exact hverne
        · exact smGet_congr k' (getD_set_ne m.slots hidx _ noSlot)
  · rw [if_neg hver]
    by_cases hk' : k' = k
    · subst hk'
      rw [if_pos rfl, smGet_none_of_vermismatch hver]
      rfl
    · rw [if_neg hk']

theorem smGet_smMapAll (m : SM α) (f : α → α) (k : SKey) :
    smGet (smMapAll m f) k = (smGet m k).map f := by
  unfold smMapAll smGet
  rcases Nat.lt_or_ge k.idx m.slots.length with hk | hk
  · rw [List.getD_eq_getElem _ noSlot (by simpa using hk),
      List.getD_eq_getElem m.slots noSlot hk, List.getElem_map]
    by_cases hver : m.slots[k.idx].version = k.ver
    · rw [if_pos hver, if_pos hver]
    · rw [if_neg hver, if_neg hver]
      rfl
  · rw [List.getD_eq_default _ noSlot (by simpa using hk),
      List.getD_eq_default m.slots noSlot hk]
    by_cases hver : (noSlot (α := α)).version = k.ver
    · rw [if_pos (by simpa [noSlot] using hver)]
      simp [noSlot]
    · rw [if_neg (by simpa [noSlot] using hver)]
      rfl

theorem SMWF_smModify {m : SM α} (h : SMWF m) (k : SKey) (f : α → α) :
    SMWF (smModify m k f) := by
  unfold smModify
  by_cases hver : (m.slots.getD k.idx noSlot).version = k.ver
  · rw [if_pos hver]
    rcases hval : (m.slots.getD k.idx noSlot).value with _ | v
    · exact h
    · simp only []
      refine ⟨h.1, fun j hj => ?_⟩
      have hji : j ≠ k.idx := fun he => by
        have := (h.2 j hj).2
        rw [he, hval] at this
        exact Option.noConfusion this
      refine ⟨by simpa using (h.2 j hj).1, ?_⟩
      rw [getD_set_ne _ (Ne.symm hji)]
      exact (h.2 j hj).2
  · rw [if_neg hver]
    exact h

theorem SMWF_smMapAll {m : SM α} (h : SMWF m) (f : α → α) : SMWF (smMapAll m f) := by
  unfold smMapAll
  refine ⟨h.1, fun j hj => ?_⟩
  have hj2 := h.2 j hj
  refine ⟨by simpa using hj2.1, ?_⟩
  rw [List.getD_eq_getElem _ noSlot (by simpa using hj2.1), List.getElem_map]
  have : m.slots[j] = m.slots.getD j noSlot := (List.getD_eq_getElem m.slots noSlot hj2.1).symm
  rw [this, hj2.2]
  rfl

theorem SMWF_smStep {m : SM α} (h : SMWF m) (op : SMOp α) : SMWF (smStep m op) := by
  cases op with
  | ins v => exact SMWF_smInsert h v
  | rem k => exact SMWF_smRemove h k

theorem stale_smGet {m : SM α} {k : SKey} (h : Stale m k) : smGet m k = none :=
  smGet_none_of_vermismatch (by have := h.2; omega)

theorem stale_smRemove {m : SM α} {k : SKey} (h : Stale m k) : smRemove m k = (m, none) := by
  unfold smRemove
  rw [if_neg (by have := h.2; omega)]

theorem smRemove_of_live {m : SM α} {k : SKey} {v : α} (h : smGet m k = some v) :
    (smRemove m k).2 = some v ∧ Stale (smRemove m k).1 k := by
  have hk := smGet_idx_lt h
  have hspec := smGet_spec h
  unfold smRemove
  rw [if_pos hspec.1, hspec.2]
  simp only []
  constructor
  · trivial
  · constructor
    · simpa using hk
    · rw [getD_set_self _ _ hk, hspec.1]
      exact Nat.lt_succ_self _

theorem stale_smStep {m : SM α} {k : SKey} (h : Stale m k) (op : SMOp α) :
    Stale (smStep m op) k :=
  ⟨lt_of_lt_of_le h.1 (smStep_length_le m op),
    lt_of_lt_of_le h.2 (smStep_version_le m op k.idx)⟩

theorem stale_smRun {m : SM α} {k : SKey} (h : Stale m k) (ops : List (SMOp α)) :
    Stale (smRun m ops) k := by
  induction ops generalizing m with
  | nil => exact h
  | cons op ops ih => exact ih (stale_smStep h op)

theorem smGet_smStep_of_live {m : SM α} (hwf : SMWF m) {k : SKey} {v : α}
    (h : smGet m k = some v) {op : SMOp α} (hop : op ≠ SMOp.rem k) :
    smGet (smStep m op) k = some v := by
  cases op with
  | ins w => exact smGet_smInsert_of_live hwf h w
  | rem k2 =>
      have hne : k2 ≠ k := fun he => hop (by rw [he])
      exact smGet_smRemove_other h hne

theorem SMWF_smRun {m : SM α} (h : SMWF m) (ops : List (SMOp α)) : SMWF (smRun m ops) := by
  induction ops generalizing m with
  | nil => exact h
  | cons op ops ih => exact ih (SMWF_smStep h op)

theorem smGet_smRun_of_live {m : SM α} (hwf : SMWF m) {k : SKey} {v : α}
    (h : smGet m k = some v) {ops : List (SMOp α)} (hops : SMOp.rem k ∉ ops) :
    smGet (smRun m ops) k = some v := by
  induction ops generalizing m with
  | nil => exact h
  | cons op ops ih =>
      have hop : op ≠ SMOp.rem k := fun he => hops (he ▸ List.mem_cons_self op ops)
      exact ih (SMWF_smStep hwf op) (smGet_smStep_of_live hwf h hop)
        (fun hmem => hops (List.mem_cons_of_mem op hmem))

end ArenaLemmas

/-! ## Lemmas about the two-arena graph -/

section GraphLemmas

variable {N E : Type}

theorem getEdgeNodes_some_iff {g : SlotGraph N E} {ek : SKey} {p : SKey × SKey} :
    getEdgeNodes g ek = some p ↔
      ∃ ev, smGet g.edges ek = some ev ∧ (ev.fromN, ev.toN) = p := by
  unfold getEdgeNodes
  cases hg : smGet g.edges ek with
  | none => simp
  | some ev => simp

theorem SMWF_edges_gStep {g : SlotGraph N E} (hwf : SMWF g.edges) (op : GOp N E) :
    SMWF (gStep g op).edges := by
  cases op with
  | insNode v => exact hwf
  | remNode k => exact hwf
  | mutNode k f => exact hwf
  | mutAllNodes f => exact hwf
  | insEdge f t v => exact SMWF_smInsert hwf _
  | remEdge k => exact SMWF_smRemove hwf k
  | mutEdge k f => exact SMWF_smModify hwf k _
  | mutAllEdges f => exact SMWF_smMapAll hwf _

theorem getEdgeNodes_gStep {g : SlotGraph N E} (hwf : SMWF g.edges) {ek : SKey}
    {p : SKey × SKey} (h : getEdgeNodes g ek = some p) {op : GOp N E}
    (hop : op ≠ GOp.remEdge ek) : getEdgeNodes (gStep g op) ek = some p := by
  obtain ⟨ev, hev, hp⟩ := getEdgeNodes_some_iff.mp h
  cases op with
  | insNode v => exact h
  | remNode k => exact h
  | mutNode k f => exact h
  | mutAllNodes f => exact h
  | insEdge f2 t2 v =>
      refine getEdgeNodes_some_iff.mpr ⟨ev, ?_, hp⟩
      exact smGet_smInsert_of_live hwf hev _
  | remEdge k =>
      have hne : k ≠ ek := fun he => hop (by rw [he])
      refine getEdgeNodes_some_iff.mpr ⟨ev, ?_, hp⟩
      exact smGet_smRemove_other hev hne
  | mutEdge k f =>
      by_cases hek : ek = k
      · subst hek
        refine getEdgeNodes_some_iff.mpr ⟨⟨ev.fromN, ev.toN, f ev.value⟩, ?_, hp⟩
        show smGet (smModify g.edges ek _) ek = _
        rw [smGet_smModify, if_pos rfl, hev]
        rfl
      · refine getEdgeNodes_some_iff.mpr ⟨ev, ?_, hp⟩
        show smGet (smModify g.edges k _) ek = _
        rw [smGet_smModify, if_neg hek]
        exact hev
  | mutAllEdges f =>
      refine getEdgeNodes_some_iff.mpr ⟨⟨ev.fromN, ev.toN, f ev.value⟩, ?_, hp⟩
      show smGet (smMapAll g.edges _) ek = _
      rw [smGet_smMapAll, hev]
      rfl

theorem getEdgeNodes_gRun {g : SlotGraph N E} (hwf : SMWF g.edges) {ek : SKey}
    {p : SKey × SKey} (h : getEdgeNodes g ek = some p) {ops : List (GOp N E)}
    (hops : GOp.remEdge ek ∉ ops) : getEdgeNodes (gRun g ops) ek = some p := by
  induction ops generalizing g with
  | nil => exact h
  | cons op ops ih =>
      have hop : op ≠ GOp.remEdge ek := fun he => hops (he ▸ List.mem_cons_self op ops)
      exact ih (SMWF_edges_gStep hwf op) (getEdgeNodes_gStep hwf h hop)
        (fun hmem => hops (List.mem_cons_of_mem op hmem))

end GraphLemmas

/-! ## Lemmas about secondary maps and swap-removal -/

section SecLemmas

variable {β : Type}

theorem secGet_secSet_self (m : SecMap β) (k : SKey) (b : β) :
    secGet (secSet m k b) k = some b := by
  induction m with
  | nil => simp [secSet, secGet]
  | cons e rest ih =>
      obtain ⟨i, w, x⟩ := e
      by_cases hi : i = k.idx
      · simp [secSet, secGet, hi]
      · simp [secSet, secGet, hi, ih]

theorem secGet_secSet_ne_idx (m : SecMap β) {k k' : SKey} (h : k.idx ≠ k'.idx) (b : β) :
    secGet (secSet m k b) k' = secGet m k' := by
  induction m with
  | nil =>
      simp only [secSet, secGet]
      rw [if_neg h]
  | cons e rest ih =>
      obtain ⟨i, w, x⟩ := e
      by_cases hi : i = k.idx
      · subst hi
        simp only [secSet, secGet, if_pos rfl]
        rw [if_neg h, if_neg h]
      · simp [secSet, secGet, hi, ih]

theorem secGet_secSet_same_idx_ne (m : SecMap β) {k k' : SKey} (hidx : k.idx = k'.idx)
    (hver : k.ver ≠ k'.ver) (b : β) : secGet (secSet m k b) k' = none := by
  induction m with
  | nil => simp [secSet, secGet, hidx, hver]
  | cons e rest ih =>
      obtain ⟨i, w, x⟩ := e
      by_cases hi : i = k.idx
      · subst hi
        simp [secSet, secGet, hidx, hver]
      · have hi' : i ≠ k'.idx := fun he => hi (he.trans hidx.symm)
        simp [secSet, secGet, hi, hi', ih]

theorem count_dropLast_getLast [DecidableEq β] (l : List β) (hl : l ≠ []) (x : β) :
    l.dropLast.count x + (if l.getLast hl = x then 1 else 0) = l.count x := by
  conv_rhs => rw [← List.dropLast_concat_getLast hl]
  rw [List.count_append, List.count_singleton']

theorem count_swapRemove [DecidableEq β] (l : List β) (i : Nat) (h : i < l.length) (x : β) :
    (swapRemove l i).count x + (if l.get ⟨i, h⟩ = x then 1 else 0) = l.count x := by
  induction l generalizing i with
  | nil => simp at h
  | cons a t ih =>
      cases t with
      | nil =>
          have hi0 : i = 0 := by
            simp only [List.length_cons, List.length_nil] at h
            omega
          subst hi0
          simp [swapRemove, List.count_singleton']
      | cons b t2 =>
          have hL : (b :: t2) ≠ [] := List.cons_ne_nil b t2
          cases i with
          | zero =>
              have hlast : (a :: b :: t2).getLast? = some ((b :: t2).getLast hL) := by
                rw [List.getLast?_cons_cons, List.getLast?_eq_getLast (b :: t2) hL]
              unfold swapRemove
              rw [hlast]
              simp only [List.set_cons_zero, List.dropLast_cons₂, List.get_eq_getElem,
                List.getElem_cons_zero, List.count_cons, beq_iff_eq]
              have hd := count_dropLast_getLast (b :: t2) hL x
              simp only [List.count_cons, beq_iff_eq] at hd
              omega
          | succ j =>
              have hj : j < (b :: t2).length := by
                simp only [List.length_cons] at h ⊢
                omega
              have hlast : (a :: b :: t2).getLast? = some ((b :: t2).getLast hL) := by
                rw [List.getLast?_cons_cons, List.getLast?_eq_getLast (b :: t2) hL]
              have hset : ((b :: t2).set j ((b :: t2).getLast hL)) ≠ [] := by
                intro he
                have := congrArg List.length he
                simp at this
              have hsw : swapRemove (a :: b :: t2) (j + 1) = a :: swapRemove (b :: t2) j := by
                unfold swapRemove
                rw [hlast, List.getLast?_eq_getLast (b :: t2) hL]
                simp only [List.set_cons_succ]
                rw [List.dropLast_cons_of_ne_nil hset]
              rw [hsw]
              have hih := ih j hj
              simp only [List.count_cons, beq_iff_eq, List.get_cons_succ] at hih ⊢
              omega

theorem mem_of_mem_swapRemove [DecidableEq β] {l : List β} {i : Nat} (h : i < l.length)
    {y : β} (hy : y ∈ swapRemove l i) : y ∈ l := by
  have hc := count_swapRemove l i h y
  have hpos : 0 < (swapRemove l i).count y := List.count_pos_iff.mpr hy
  exact List.count_pos_iff.mp (by omega)

theorem findIdx?_spec {p : β → Bool} {l : List β} {i : Nat} (h : l.findIdx? p = some i) :
    ∃ hi : i < l.length, p (l.get ⟨i, hi⟩) = true := by
  obtain ⟨hi, hp, _⟩ := List.findIdx?_eq_some_iff_getElem.mp h
  exact ⟨hi, by simpa using hp⟩

end SecLemmas

section AbsenceLemmas

variable {α : Type}

theorem smRemove_of_not_found {m : SM α} {k : SKey} (h : smGet m k = none) :
    smRemove m k = (m, none) := by
  unfold smGet at h
  unfold smRemove
  by_cases hver : (m.slots.getD k.idx noSlot).version = k.ver
  · rw [if_pos hver] at h
    rw [if_pos hver, h]
  · rw [if_neg hver]

theorem smContains_false_get {m : SM α} {k : SKey} (h : smContains m k = false) :
    smGet m k = none := by
  unfold smContains at h
  cases hg : smGet m k with
  | none => rfl
  | some v => rw [hg] at h; exact absurd h (by simp)

end AbsenceLemmas

/-! ## Lemmas about the adjacency-list graph of `src/lib.rs` -/

section LibLemmas

variable {β V : Type}

theorem secGet_some_mem {m : SecMap β} {k : SKey} {b : β} (h : secGet m k = some b) :
    (k.idx, k.ver, b) ∈ m := by
  induction m with
  | nil => exact absurd h (by simp [secGet])
  | cons e rest ih =>
      obtain ⟨i, w, x⟩ := e
      simp only [secGet] at h
      by_cases hi : i = k.idx
      · rw [if_pos hi] at h
        by_cases hw : w = k.ver
        · rw [if_pos hw] at h
          obtain rfl : x = b := by simpa using h
          subst hi
          subst hw
          exact List.mem_cons_self _ _
        · rw [if_neg hw] at h
          exact absurd h (by simp)
      · rw [if_neg hi] at h
        exact List.mem_cons_of_mem _ (ih h)

theorem secGet_ver_unique {m : SecMap β} {k k' : SKey} {b : β} (h : secGet m k = some b)
    (hidx : k.idx = k'.idx) (hver : k.ver ≠ k'.ver) : secGet m k' = none := by
  induction m with
  | nil => simp [secGet]
  | cons e rest ih =>
      obtain ⟨i, w, x⟩ := e
      simp only [secGet] at h ⊢
      by_cases hi : i = k.idx
      · rw [if_pos hi] at h
        rw [if_pos (hi.trans hidx)]
        by_cases hw : w = k.ver
        · rw [if_neg (by rw [hw]; exact hver)]
        · rw [if_neg hw] at h
          exact absurd h (by simp)
      · rw [if_neg hi] at h
        rw [if_neg (fun he => hi (he.trans hidx.symm))]
        exact ih h

theorem mem_secSet {m : SecMap β} {k : SKey} {b : β} {e : Nat × Nat × β}
    (h : e ∈ secSet m k b) : e ∈ m ∨ e = (k.idx, k.ver, b) := by
  induction m with
  | nil =>
      simp only [secSet] at h
      exact Or.inr (by simpa using h)
  | cons e2 rest ih =>
      obtain ⟨i, w, x⟩ := e2
      simp only [secSet] at h
      by_cases hi : i = k.idx
      · rw [if_pos hi] at h
        rcases List.mem_cons.mp h with rfl | hrest
        · exact Or.inr (by rw [hi])
        · exact Or.inl (List.mem_cons_of_mem _ hrest)
      · rw [if_neg hi] at h
        rcases List.mem_cons.mp h with rfl | hrest
        · exact Or.inl (List.mem_cons_self _ _)
        · rcases ih hrest with h1 | h2
          · exact Or.inl (List.mem_cons_of_mem _ h1)
          · exact Or.inr h2

theorem SecWFL_elem {m : SecMap (List SKey)} {n : Nat} (hwf : Lib.SecWFL m n) {a : SKey}
    {l : List SKey} (h : secGet m a = some l) :
    a.idx < n ∧ a.ver = 1 ∧ ∀ x ∈ l, x.idx < n ∧ x.ver = 1 := by
  have hmem := secGet_some_mem h
  have he := hwf.1 _ hmem
  exact ⟨he.1, he.2.1, he.2.2⟩

theorem SecWFL_secSet {m : SecMap (List SKey)} {n : Nat} (hwf : Lib.SecWFL m n)
    {k : SKey} {l l2 : List SKey} (h : secGet m k = some l)
    (h2 : ∀ x ∈ l2, x.idx < n ∧ x.ver = 1) : Lib.SecWFL (secSet m k l2) n := by
  have hk := SecWFL_elem hwf h
  constructor
  · intro e he
    rcases mem_secSet he with h1 | h1
    · exact hwf.1 _ h1
    · subst h1
      exact ⟨hk.1, hk.2.1, h2⟩
  · intro i hi
    by_cases hik : i = k.idx
    · have hkey : (⟨i, 1⟩ : SKey) = k := by
        cases k
        simp_all [hk.2.1]
      rw [hkey, secGet_secSet_self]
      exact ⟨l2, rfl⟩
    · rw [secGet_secSet_ne_idx _ (fun he => hik he.symm)]
      exact hwf.2 i hi

theorem SecWFL_extend {m : SecMap (List SKey)} {n : Nat} (hwf : Lib.SecWFL m n) :
    Lib.SecWFL (secSet m ⟨n, 1⟩ []) (n + 1) := by
  constructor
  · intro e he
    rcases mem_secSet he with h1 | h1
    · have h2 := hwf.1 _ h1
      exact ⟨by omega, h2.2.1, fun x hx => ⟨by have := (h2.2.2 x hx).1; omega,
        (h2.2.2 x hx).2⟩⟩
    · subst h1
      refine ⟨Nat.lt_succ_self n, rfl, ?_⟩
      intro x hx
      exact absurd hx (List.not_mem_nil x)
  · intro i hi
    by_cases hik : i = n
    · subst hik
      rw [secGet_secSet_self]
      exact ⟨[], rfl⟩
    · have hne : (⟨n, 1⟩ : SKey).idx ≠ (⟨i, 1⟩ : SKey).idx := fun he => hik (by simpa using he.symm)
      rw [secGet_secSet_ne_idx _ hne]
      exact hwf.2 i (by omega)

theorem count_untracked_zero {m : SecMap (List SKey)} {n : Nat} (hwf : Lib.SecWFL m n)
    (a : SKey) {x : SKey} (hx : n ≤ x.idx) : ((secGet m a).getD []).count x = 0 := by
  cases hres : secGet m a with
  | none => simp
  | some l =>
      simp only [Option.getD_some]
      refine List.count_eq_zero.mpr (fun hmem => ?_)
      have hb := (SecWFL_elem hwf hres).2.2 x hmem
      omega

theorem pair_eq_swap (a b f t : SKey) : ((a, b) = (f, t)) ↔ ((b, a) = (t, f)) := by
  constructor
  · intro h
    simp only [Prod.mk.injEq] at h ⊢
    exact ⟨h.2, h.1⟩
  · intro h
    simp only [Prod.mk.injEq] at h ⊢
    exact ⟨h.2, h.1⟩

theorem insertEdge_deltas {g g2 : LibGraph V} {f t : SKey}
    (h : Lib.insertEdge g f t = Except.ok g2) :
    (∀ a b, Lib.countOut g2 a b = Lib.countOut g a b + (if (a, b) = (f, t) then 1 else 0)) ∧
    (∀ b a, Lib.countIn g2 b a = Lib.countIn g b a + (if (b, a) = (t, f) then 1 else 0)) := by
  unfold Lib.insertEdge at h
  cases hlo : secGet g.adjOut f with
  | none => simp only [hlo] at h; exact absurd h (by simp)
  | some lo =>
      simp only [hlo] at h
      cases hli : secGet g.adjIn t with
      | none => simp only [hli] at h; exact absurd h (by simp)
      | some li =>
          simp only [hli] at h
          simp only [Except.ok.injEq] at h
          subst h
          constructor
          · intro a b
            show ((secGet (secSet g.adjOut f (lo ++ [t])) a).getD []).count b =
              ((secGet g.adjOut a).getD []).count b + _
            by_cases haf : a = f
            · subst haf
              rw [secGet_secSet_self, hlo]
              simp only [Option.getD_some, List.count_append]
              by_cases hbt : b = t
              · subst hbt
                rw [if_pos rfl]
                simp [List.count_singleton']
              · rw [if_neg (fun he => hbt (by simpa using (Prod.mk.injEq _ _ _ _ ▸ he).2))]
                have : (([t] : List SKey)).count b = 0 :=
                  List.count_eq_zero.mpr (by simpa using fun he => hbt (by simp [he]))
                omega
            · rw [if_neg (fun he => haf (by simpa using (Prod.mk.injEq _ _ _ _ ▸ he).1))]
              by_cases hidx : a.idx = f.idx
              · have hver : f.ver ≠ a.ver := fun hv => haf (by cases a; cases f; simp_all)
                rw [secGet_secSet_same_idx_ne _ hidx.symm hver,
                  secGet_ver_unique hlo hidx.symm hver]
                simp
              · rw [secGet_secSet_ne_idx _ (fun he => hidx he.symm)]
                omega
          · intro b a
            show ((secGet (secSet g.adjIn t (li ++ [f])) b).getD []).count a =
              ((secGet g.adjIn b).getD []).count a + _
            by_cases hbt : b = t
            · subst hbt
              rw [secGet_secSet_self, hli]
              simp only [Option.getD_some, List.count_append]
              by_cases haf : a = f
              · subst haf
                rw [if_pos rfl]
                simp [List.count_singleton']
              · rw [if_neg (fun he => haf (by simpa using (Prod.mk.injEq _ _ _ _ ▸ he).2))]
                have : (([f] : List SKey)).count a = 0 :=
                  List.count_eq_zero.mpr (by simpa using fun he => haf (by simp [he]))
                omega
            · rw [if_neg (fun he => hbt (by simpa using (Prod.mk.injEq _ _ _ _ ▸ he).1))]
              by_cases hidx : b.idx = t.idx
              · have hver : t.ver ≠ b.ver := fun hv => hbt (by cases b; cases t; simp_all)
                rw [secGet_secSet_same_idx_ne _ hidx.symm hver,
                  secGet_ver_unique hli hidx.symm hver]
                simp
              · rw [secGet_secSet_ne_idx _ (fun he => hidx he.symm)]
                omega

theorem removeEdge_deltas {g g2 : LibGraph V} {f t : SKey}
    (h : Lib.removeEdge g f t = Except.ok g2) :
    g2 = g ∨
    ((∀ a b, Lib.countOut g2 a b + (if (a, b) = (f, t) then 1 else 0) = Lib.countOut g a b) ∧
     (∀ b a, Lib.countIn g2 b a + (if (b, a) = (t, f) then 1 else 0) = Lib.countIn g b a)) := by
  unfold Lib.removeEdge at h
  cases hlo : secGet g.adjOut f with
  | none => simp only [hlo] at h; exact absurd h (by simp)
  | some lo =>
      simp only [hlo] at h
      cases hli : secGet g.adjIn t with
      | none => simp only [hli] at h; exact absurd h (by simp)
      | some li =>
          simp only [hli] at h
          cases hio : lo.findIdx? (fun n => n = t) with
          | none =>
              simp only [hio] at h
              simp only [Except.ok.injEq] at h
              exact Or.inl h.symm
          | some io =>
              simp only [hio] at h
              cases hii : li.findIdx? (fun n => n = f) with
              | none =>
                  simp only [hii] at h
                  simp only [Except.ok.injEq] at h
                  exact Or.inl h.symm
              | some ii =>
                  simp only [hii] at h
                  simp only [Except.ok.injEq] at h
                  subst h
                  obtain ⟨hiolt, hpo⟩ := findIdx?_spec hio
                  obtain ⟨hiilt, hpi⟩ := findIdx?_spec hii
                  have hgo : lo.get ⟨io, hiolt⟩ = t := by simpa using hpo
                  have hgi : li.get ⟨ii, hiilt⟩ = f := by simpa using hpi
                  refine Or.inr ⟨?_, ?_⟩
                  · intro a b
                    show ((secGet (secSet g.adjOut f (swapRemove lo io)) a).getD []).count b
                        + _ = ((secGet g.adjOut a).getD []).count b
                    by_cases haf : a = f
                    · subst haf
                      rw [secGet_secSet_self, hlo]
                      simp only [Option.getD_some]
                      have hc := count_swapRemove lo io hiolt b
                      rw [hgo] at hc
                      by_cases hbt : b = t
                      · subst hbt
                        rw [if_pos rfl]
                        rw [if_pos rfl] at hc
                        omega
                      · rw [if_neg (fun he => hbt
                          (by simpa using (Prod.mk.injEq _ _ _ _ ▸ he).2))]
                        rw [if_neg (fun he => hbt he.symm)] at hc
                        omega
                    · rw [if_neg (fun he => haf
                        (by simpa using (Prod.mk.injEq _ _ _ _ ▸ he).1))]
                      by_cases hidx : a.idx = f.idx
                      · have hver : f.ver ≠ a.ver := fun hv => haf (by cases a; cases f; simp_all)
                        rw [secGet_secSet_same_idx_ne _ hidx.symm hver,
                          secGet_ver_unique hlo hidx.symm hver]
                        simp
                      · rw [secGet_secSet_ne_idx _ (fun he => hidx he.symm)]
                        omega
                  · intro b a
                    show ((secGet (secSet g.adjIn t (swapRemove li ii)) b).getD []).count a
                        + _ = ((secGet g.adjIn b).getD []).count a
                    by_cases hbt : b = t
                    · subst hbt
                      rw [secGet_secSet_self, hli]
                      simp only [Option.getD_some]
                      have hc := count_swapRemove li ii hiilt a
                      rw [hgi] at hc
                      by_cases haf : a = f
                      · subst haf
                        rw [if_pos rfl]
                        rw [if_pos rfl] at hc
                        omega
                      · rw [if_neg (fun he => haf
                          (by simpa using (Prod.mk.injEq _ _ _ _ ▸ he).2))]
                        rw [if_neg (fun he => haf he.symm)] at hc
                        omega
                    · rw [if_neg (fun he => hbt
                        (by simpa using (Prod.mk.injEq _ _ _ _ ▸ he).1))]
                      by_cases hidx : b.idx = t.idx
                      · have hver : t.ver ≠ b.ver := fun hv => hbt (by cases b; cases t; simp_all)
                        rw [secGet_secSet_same_idx_ne _ hidx.symm hver,
                          secGet_ver_unique hli hidx.symm hver]
                        simp
                      · rw [secGet_secSet_ne_idx _ (fun he => hidx he.symm)]
                        omega

theorem insertEdge_ok_wf {g g2 : LibGraph V} {f t : SKey} (hwf : Lib.LibWF g)
    (h : Lib.insertEdge g f t = Except.ok g2) : Lib.LibWF g2 := by
  obtain ⟨hfree, hver, hwfIn, hwfOut⟩ := hwf
  unfold Lib.insertEdge at h
  cases hlo : secGet g.adjOut f with
  | none => simp only [hlo] at h; exact absurd h (by simp)
  | some lo =>
      simp only [hlo] at h
      cases hli : secGet g.adjIn t with
      | none => simp only [hli] at h; exact absurd h (by simp)
      | some li =>
          simp only [hli] at h
          simp only [Except.ok.injEq] at h
          subst h
          refine ⟨hfree, hver, ?_, ?_⟩
          · refine SecWFL_secSet hwfIn hli ?_
            intro x hx
            rcases List.mem_append.mp hx with h1 | h2
            · exact (SecWFL_elem hwfIn hli).2.2 x h1
            · obtain rfl := List.mem_singleton.mp h2
              exact ⟨(SecWFL_elem hwfOut hlo).1, (SecWFL_elem hwfOut hlo).2.1⟩
          · refine SecWFL_secSet hwfOut hlo ?_
            intro x hx
            rcases List.mem_append.mp hx with h1 | h2
            · exact (SecWFL_elem hwfOut hlo).2.2 x h1
            · obtain rfl := List.mem_singleton.mp h2
              exact ⟨(SecWFL_elem hwfIn hli).1, (SecWFL_elem hwfIn hli).2.1⟩

theorem removeEdge_ok_wf {g g2 : LibGraph V} {f t : SKey} (hwf : Lib.LibWF g)
    (h : Lib.removeEdge g f t = Except.ok g2) : Lib.LibWF g2 := by
  obtain ⟨hfree, hver, hwfIn, hwfOut⟩ := hwf
  unfold Lib.removeEdge at h
  cases hlo : secGet g.adjOut f with
  | none => simp only [hlo] at h; exact absurd h (by simp)
  | some lo =>
      simp only [hlo] at h
      cases hli : secGet g.adjIn t with
      | none => simp only [hli] at h; exact absurd h (by simp)
      | some li =>
          simp only [hli] at h
          cases hio : lo.findIdx? (fun n => n = t) with
          | none =>
              simp only [hio] at h
              simp only [Except.ok.injEq] at h
              subst h
              exact ⟨hfree, hver, hwfIn, hwfOut⟩
          | some io =>
              simp only [hio] at h
              cases hii : li.findIdx? (fun n => n = f) with
              | none =>
                  simp only [hii] at h
                  simp only [Except.ok.injEq] at h
                  subst h
                  exact ⟨hfree, hver, hwfIn, hwfOut⟩
              | some ii =>
                  simp only [hii] at h
                  simp only [Except.ok.injEq] at h
                  subst h
                  obtain ⟨hiolt, _⟩ := findIdx?_spec hio
                  obtain ⟨hiilt, _⟩ := findIdx?_spec hii
                  refine ⟨hfree, hver, ?_, ?_⟩
                  · refine SecWFL_secSet hwfIn hli ?_
                    intro x hx
                    exact (SecWFL_elem hwfIn hli).2.2 x (mem_of_mem_swapRemove hiilt hx)
                  · refine SecWFL_secSet hwfOut hlo ?_
                    intro x hx
                    exact (SecWFL_elem hwfOut hlo).2.2 x (mem_of_mem_swapRemove hiolt hx)

theorem insertNode_inv {g : LibGraph V} (h1 : Lib.LibWF g) (h2 : Lib.countInv g) (v : V) :
    Lib.LibWF (Lib.insertNode g v).1 ∧ Lib.countInv (Lib.insertNode g v).1 := by
  obtain ⟨hfree, hver, hwfIn, hwfOut⟩ := h1
  have hins : smInsert g.nodes v =
      (⟨g.nodes.slots ++ [⟨1, some v⟩], []⟩, ⟨g.nodes.slots.length, 1⟩) := by
    unfold smInsert
    rw [hfree]
  have hg2 : (Lib.insertNode g v).1 =
      ⟨⟨g.nodes.slots ++ [⟨1, some v⟩], []⟩,
        secSet g.adjIn ⟨g.nodes.slots.length, 1⟩ [],
        secSet g.adjOut ⟨g.nodes.slots.length, 1⟩ []⟩ := by
    unfold Lib.insertNode
    rw [hins]
  rw [hg2]
  set n := g.nodes.slots.length with hn
  have hlen : (g.nodes.slots ++ [(⟨1, some v⟩ : Slot V)]).length = n + 1 := by
    simp [hn]
  have hsec : ∀ (m : SecMap (List SKey)), Lib.SecWFL m n → ∀ k : SKey,
      (secGet (secSet m ⟨n, 1⟩ []) k).getD [] =
        if k = (⟨n, 1⟩ : SKey) then [] else (secGet m k).getD [] := by
    intro m hm k
    by_cases hk : k = (⟨n, 1⟩ : SKey)
    · subst hk
      rw [secGet_secSet_self, if_pos rfl]
      rfl
    · rw [if_neg hk]
      by_cases hidx : k.idx = n
      · have hvk : (1 : Nat) ≠ k.ver := fun hv => hk (by cases k; simp_all)
        rw [secGet_secSet_same_idx_ne _ hidx.symm hvk]
        have hnone : secGet m k = none := by
          cases hres : secGet m k with
          | none => rfl
          | some l =>
              have hlt := (SecWFL_elem hm hres).1
              omega
        rw [hnone]
      · rw [secGet_secSet_ne_idx _ (fun he => hidx he.symm)]
  constructor
  · refine ⟨rfl, ?_, ?_, ?_⟩
    · intro s hs
      rcases List.mem_append.mp hs with hs1 | hs2
      · exact hver s hs1
      · obtain rfl := List.mem_singleton.mp hs2
        rfl
    · show Lib.SecWFL (secSet g.adjIn ⟨n, 1⟩ [])
        (g.nodes.slots ++ [(⟨1, some v⟩ : Slot V)]).length
      rw [hlen]
      exact SecWFL_extend hwfIn
    · show Lib.SecWFL (secSet g.adjOut ⟨n, 1⟩ [])
        (g.nodes.slots ++ [(⟨1, some v⟩ : Slot V)]).length
      rw [hlen]
      exact SecWFL_extend hwfOut
  · intro a b
    show ((secGet (secSet g.adjOut ⟨n, 1⟩ []) a).getD []).count b =
      ((secGet (secSet g.adjIn ⟨n, 1⟩ []) b).getD []).count a
    rw [hsec g.adjOut hwfOut a, hsec g.adjIn hwfIn b]
    by_cases hak : a = (⟨n, 1⟩ : SKey)
    · subst hak
      rw [if_pos rfl]
      by_cases hbk : b = (⟨n, 1⟩ : SKey)
      · rw [if_pos hbk]
        simp
      · rw [if_neg hbk]
        rw [count_untracked_zero hwfIn b (le_refl n)]
        simp
    · rw [if_neg hak]
      by_cases hbk : b = (⟨n, 1⟩ : SKey)
      · subst hbk
        rw [if_pos rfl]
        rw [count_untracked_zero hwfOut a (le_refl n)]
        simp
      · rw [if_neg hbk]
        exact h2 a b

theorem libStep_inv {g : LibGraph V} (h1 : Lib.LibWF g) (h2 : Lib.countInv g)
    (op : Lib.LibOp V) :
    Lib.LibWF (Lib.libStep g op) ∧ Lib.countInv (Lib.libStep g op) := by
  cases op with
  | insN v => exact insertNode_inv h1 h2 v
  | insE f t =>
      cases hres : Lib.insertEdge g f t with
      | error k =>
          simp only [Lib.libStep, hres]
          exact ⟨h1, h2⟩
      | ok g2 =>
          simp only [Lib.libStep, hres]
          refine ⟨insertEdge_ok_wf h1 hres, ?_⟩
          have hd := insertEdge_deltas hres
          intro a b
          have hδ : (if (a, b) = (f, t) then 1 else 0) =
              (if (b, a) = (t, f) then 1 else 0) :=
            if_congr (pair_eq_swap a b f t) rfl rfl
          have ho := hd.1 a b
          have hi := hd.2 b a
          have hc := h2 a b
          omega
  | remE f t =>
      cases hres : Lib.removeEdge g f t with
      | error k =>
          simp only [Lib.libStep, hres]
          exact ⟨h1, h2⟩
      | ok g2 =>
          simp only [Lib.libStep, hres]
          refine ⟨removeEdge_ok_wf h1 hres, ?_⟩
          rcases removeEdge_deltas hres with hsame | ⟨d1, d2⟩
          · subst hsame
            exact h2
          · intro a b
            have hδ : (if (a, b) = (f, t) then 1 else 0) =
                (if (b, a) = (t, f) then 1 else 0) :=
              if_congr (pair_eq_swap a b f t) rfl rfl
            have ho := d1 a b
            have hi := d2 b a
            have hc := h2 a b
            omega

theorem libRun_inv (ops : List (Lib.LibOp V)) :
    Lib.LibWF (Lib.libRun ops) ∧ Lib.countInv (Lib.libRun ops) := by
  suffices h : ∀ g, Lib.LibWF g → Lib.countInv g →
      Lib.LibWF (ops.foldl Lib.libStep g) ∧ Lib.countInv (ops.foldl Lib.libStep g) by
    refine h Lib.libEmpty ⟨rfl, ?_, ?_, ?_⟩ ?_
    · intro s hs
      exact absurd hs (List.not_mem_nil s)
    · exact ⟨fun e he => absurd he (List.not_mem_nil e),
        fun i hi => absurd hi (by simp [Lib.libEmpty, smEmpty])⟩
    · exact ⟨fun e he => absurd he (List.not_mem_nil e),
        fun i hi => absurd hi (by simp [Lib.libEmpty, smEmpty])⟩
    · intro a b
      rfl
  induction ops with
  | nil => intro g hg1 hg2; exact ⟨hg1, hg2⟩
  | cons op ops ih =>
      intro g hg1 hg2
      have hstep := libStep_inv hg1 hg2 op
      exact ih _ hstep.1 hstep.2

end LibLemmas

/-! ## Lemmas about the adjacency index of `examples/adj_graph.rs` -/

section AGLemmas

variable {N E : Type}

theorem AGInv_empty : AGInv (⟨adjEmpty, []⟩ : AGSt N E) := by
  refine ⟨rfl, rfl, rfl, ?_, ?_, ?_, ?_⟩
  · intro s hs
    exact absurd hs (List.not_mem_nil s)
  · intro i hi
    exact absurd hi (by simp [adjEmpty, sgEmpty, smEmpty])
  · intro i hi
    exact absurd hi (by simp [adjEmpty, sgEmpty, smEmpty])
  · intro j hj
    exact absurd hj (by simp [adjEmpty, sgEmpty, smEmpty])

theorem AGInv_insN {st : AGSt N E} (h : AGInv st) (v : N) :
    AGInv (agStep st (AGOp.insN v)) := by
  obtain ⟨⟨⟨⟨nslots, nfree⟩, edgesM⟩, adjI, adjO⟩, ns⟩ := st
  obtain ⟨hns, hnfree, hefree, hever, hout, hin, hcnt⟩ := h
  simp only at hns hnfree hefree hever hout hin hcnt
  subst hnfree
  set n := nslots.length with hn
  show AGInv ⟨⟨⟨⟨nslots ++ [⟨1, some v⟩], []⟩, edgesM⟩,
    secSet adjI ⟨n, 1⟩ [], secSet adjO ⟨n, 1⟩ []⟩, ns ++ [⟨n, 1⟩]⟩
  have hlen : (nslots ++ [(⟨1, some v⟩ : Slot N)]).length = n + 1 := by simp [hn]
  refine ⟨?_, rfl, hefree, hever, ?_, ?_, ?_⟩
  · show ns ++ [⟨n, 1⟩] = (List.range (nslots ++ [(⟨1, some v⟩ : Slot N)]).length).map _
    rw [hlen, List.range_succ, List.map_append, ← hns]
    rfl
  · intro i hi
    rw [hlen] at hi
    by_cases hieq : i = n
    · subst hieq
      refine ⟨[], secGet_secSet_self _ _ _, ?_, ?_⟩
      · intro p hp
        exact absurd hp (List.not_mem_nil p)
      · simp
    · have hi' : i < n := by omega
      obtain ⟨l, hval, hok⟩ := hout i hi'
      refine ⟨l, ?_, hok⟩
      rw [secGet_secSet_ne_idx _ (fun he => hieq (by simpa using he.symm))]
      exact hval
  · intro i hi
    rw [hlen] at hi
    by_cases hieq : i = n
    · subst hieq
      refine ⟨[], secGet_secSet_self _ _ _, ?_, ?_⟩
      · intro p hp
        exact absurd hp (List.not_mem_nil p)
      · simp
    · have hi' : i < n := by omega
      obtain ⟨l, hval, hok⟩ := hin i hi'
      refine ⟨l, ?_, hok⟩
      rw [secGet_secSet_ne_idx _ (fun he => hieq (by simpa using he.symm))]
      exact hval
  · intro j hj ev hev
    obtain ⟨hfv, hfi, htv, hti, hcf, hct⟩ := hcnt j hj ev hev
    refine ⟨hfv, by rw [hlen]; omega, htv, by rw [hlen]; omega, ?_, ?_⟩
    · intro lf hlf
      rw [secGet_secSet_ne_idx _ (fun he => by simp at he; omega)] at hlf
      exact hcf lf hlf
    · intro lt2 hlt
      rw [secGet_secSet_ne_idx _ (fun he => by simp at he; omega)] at hlt
      exact hct lt2 hlt

theorem AGInv_insE {st : AGSt N E} (h : AGInv st) (i j : Nat) (v : E) :
    AGInv (agStep st (AGOp.insE i j v)) := by
  obtain ⟨⟨⟨nodesM, ⟨eslots, efree⟩⟩, adjI, adjO⟩, ns⟩ := st
  obtain ⟨hns, hnfree, hefree, hever, hout, hin, hcnt⟩ := h
  simp only at hns hnfree hefree hever hout hin hcnt
  subst hefree
  set n := nodesM.slots.length with hn
  set m := eslots.length with hm
  have hnslen : ns.length = n := by rw [hns]; simp
  by_cases hi : i < n
  case neg =>
      have hnone : ns.get? i = none := by
        rw [List.get?_eq_getElem?, List.getElem?_eq_none]
        omega
      show AGInv (agStep _ _)
      simp only [agStep, hnone]
      exact ⟨hns, hnfree, rfl, hever, hout, hin, hcnt⟩
  by_cases hj : j < n
  case neg =>
      have hsome : ns.get? i = some ⟨i, 1⟩ := by
        rw [hns, List.get?_map, List.get?_range (by omega)]
        rfl
      have hnone : ns.get? j = none := by
        rw [List.get?_eq_getElem?, List.getElem?_eq_none]
        omega
      show AGInv (agStep _ _)
      simp only [agStep, hsome, hnone]
      exact ⟨hns, hnfree, rfl, hever, hout, hin, hcnt⟩
  have hsi : ns.get? i = some ⟨i, 1⟩ := by
    rw [hns, List.get?_map, List.get?_range (by omega)]
    rfl
  have hsj : ns.get? j = some ⟨j, 1⟩ := by
    rw [hns, List.get?_map, List.get?_range (by omega)]
    rfl
  obtain ⟨lo, hlo, hloE, hloP⟩ := hout i hi
  obtain ⟨li, hli, hliE, hliP⟩ := hin j hj
  have hstep : agStep ⟨⟨⟨nodesM, ⟨eslots, []⟩⟩, adjI, adjO⟩, ns⟩ (AGOp.insE i j v) =
      ⟨⟨⟨nodesM, ⟨eslots ++ [⟨1, some ⟨⟨i, 1⟩, ⟨j, 1⟩, v⟩⟩], []⟩⟩,
        secSet adjI ⟨j, 1⟩ (li ++ [(⟨m, 1⟩, ⟨i, 1⟩)]),
        secSet adjO ⟨i, 1⟩ (lo ++ [(⟨m, 1⟩, ⟨j, 1⟩)])⟩, ns⟩ := by
    simp only [agStep, hsi, hsj, adjInsertEdge, insertEdge, smInsert, hlo, hli]
  rw [hstep]
  have helen : (eslots ++ [(⟨1, some ⟨⟨i, 1⟩, ⟨j, 1⟩, v⟩⟩ : Slot (EdgeValue E))]).length
      = m + 1 := by
    simp [hm]
  have hftA : ∀ j2, j2 < m →
      edgeFT (⟨nodesM, ⟨eslots ++ [⟨1, some ⟨⟨i, 1⟩, ⟨j, 1⟩, v⟩⟩], []⟩⟩ : SlotGraph N E) j2 =
        edgeFT (⟨nodesM, ⟨eslots, []⟩⟩ : SlotGraph N E) j2 := by
    intro j2 hj2
    unfold edgeFT
    rw [show ((⟨eslots ++ [⟨1, some ⟨⟨i, 1⟩, ⟨j, 1⟩, v⟩⟩], []⟩ : SM (EdgeValue E))).slots.getD
        j2 noSlot = eslots.getD j2 noSlot from getD_append_lt _ _ hj2 _]
  have hftM : edgeFT (⟨nodesM, ⟨eslots ++ [⟨1, some ⟨⟨i, 1⟩, ⟨j, 1⟩, v⟩⟩], []⟩⟩ :
      SlotGraph N E) m = some (⟨i, 1⟩, ⟨j, 1⟩) := by
    unfold edgeFT
    rw [show ((⟨eslots ++ [⟨1, some ⟨⟨i, 1⟩, ⟨j, 1⟩, v⟩⟩], []⟩ : SM (EdgeValue E))).slots.getD
        m noSlot = ⟨1, some ⟨⟨i, 1⟩, ⟨j, 1⟩, v⟩⟩ from getD_append_self _ _ _]
    rfl
  refine ⟨hns, hnfree, rfl, ?_, ?_, ?_, ?_⟩
  · intro s hs
    rcases List.mem_append.mp hs with hs1 | hs2
    · exact hever s hs1
    · obtain rfl := List.mem_singleton.mp hs2
      exact ⟨rfl, rfl⟩
  · intro i2 hi2
    by_cases hie : i2 = i
    · subst hie
      refine ⟨lo ++ [(⟨m, 1⟩, ⟨j, 1⟩)], secGet_secSet_self _ _ _, ?_, ?_⟩
      · intro p hp
        rcases List.mem_append.mp hp with hp1 | hp2
        · obtain ⟨hv1, hv2, hv3⟩ := hloE p hp1
          exact ⟨hv1, by rw [helen]; exact Nat.lt_succ_of_lt hv2,
            by rw [hftA p.1.idx hv2]; exact hv3⟩
        · obtain rfl := List.mem_singleton.mp hp2
          exact ⟨rfl, by rw [helen]; exact Nat.lt_succ_self m, hftM⟩
      · rw [List.map_append]
        rw [List.pairwise_append]
        refine ⟨hloP, by simp, ?_⟩
        intro x hx y hy
        obtain ⟨p, hp, rfl⟩ := List.mem_map.mp hx
        obtain rfl : y = m := by simpa using hy
        exact (hloE p hp).2.1
    · have hne : (⟨i, 1⟩ : SKey).idx ≠ (⟨i2, 1⟩ : SKey).idx := fun he => hie (by simpa using he.symm)
      obtain ⟨l, hval, hlE, hlP⟩ := hout i2 hi2
      refine ⟨l, by rw [secGet_secSet_ne_idx _ hne]; exact hval, ?_, hlP⟩
      intro p hp
      obtain ⟨hv1, hv2, hv3⟩ := hlE p hp
      exact ⟨hv1, by rw [helen]; exact Nat.lt_succ_of_lt hv2,
        by rw [hftA p.1.idx hv2]; exact hv3⟩
  · intro j2 hj2
    by_cases hje : j2 = j
    · subst hje
      refine ⟨li ++ [(⟨m, 1⟩, ⟨i, 1⟩)], secGet_secSet_self _ _ _, ?_, ?_⟩
      · intro p hp
        rcases List.mem_append.mp hp with hp1 | hp2
        · obtain ⟨hv1, hv2, hv3⟩ := hliE p hp1
          exact ⟨hv1, by rw [helen]; exact Nat.lt_succ_of_lt hv2,
            by rw [hftA p.1.idx hv2]; exact hv3⟩
        · obtain rfl := List.mem_singleton.mp hp2
          exact ⟨rfl, by rw [helen]; exact Nat.lt_succ_self m, hftM⟩
      · rw [List.map_append]
        rw [List.pairwise_append]
        refine ⟨hliP, by simp, ?_⟩
        intro x hx y hy
        obtain ⟨p, hp, rfl⟩ := List.mem_map.mp hx
        obtain rfl : y = m := by simpa using hy
        exact (hliE p hp).2.1
    · have hne : (⟨j, 1⟩ : SKey).idx ≠ (⟨j2, 1⟩ : SKey).idx := fun he => hje (by simpa using he.symm)
      obtain ⟨l, hval, hlE, hlP⟩ := hin j2 hj2
      refine ⟨l, by rw [secGet_secSet_ne_idx _ hne]; exact hval, ?_, hlP⟩
      intro p hp
      obtain ⟨hv1, hv2, hv3⟩ := hlE p hp
      exact ⟨hv1, by rw [helen]; exact Nat.lt_succ_of_lt hv2,
        by rw [hftA p.1.idx hv2]; exact hv3⟩
  · intro j2 hj2 ev hev
    rw [helen] at hj2
    by_cases hjm : j2 = m
    · subst hjm
      rw [hm, getD_append_self] at hev
      obtain rfl : ev = ⟨⟨i, 1⟩, ⟨j, 1⟩, v⟩ := by simpa using hev.symm
      refine ⟨rfl, hi, rfl, hj, ?_, ?_⟩
      · intro lf hlf
        rw [show (⟨⟨i, 1⟩, ⟨j, 1⟩, v⟩ : EdgeValue E).fromN = (⟨i, 1⟩ : SKey) from rfl,
          secGet_secSet_self] at hlf
        obtain rfl : lf = lo ++ [(⟨m, 1⟩, ⟨j, 1⟩)] := by simpa using hlf.symm
        show (lo ++ [((⟨m, 1⟩ : SKey), (⟨j, 1⟩ : SKey))]).count (⟨m, 1⟩, ⟨j, 1⟩) = 1
        rw [List.count_append]
        have hzero : lo.count ((⟨m, 1⟩ : SKey), (⟨j, 1⟩ : SKey)) = 0 := by
          refine List.count_eq_zero.mpr (fun hmem => ?_)
          have hb := (hloE _ hmem).2.1
          simp [hm] at hb
        rw [hzero]
        simp
      · intro lt2 hlt
        rw [show (⟨⟨i, 1⟩, ⟨j, 1⟩, v⟩ : EdgeValue E).toN = (⟨j, 1⟩ : SKey) from rfl,
          secGet_secSet_self] at hlt
        obtain rfl : lt2 = li ++ [(⟨m, 1⟩, ⟨i, 1⟩)] := by simpa using hlt.symm
        show (li ++ [((⟨m, 1⟩ : SKey), (⟨i, 1⟩ : SKey))]).count (⟨m, 1⟩, ⟨i, 1⟩) = 1
        rw [List.count_append]
        have hzero : li.count ((⟨m, 1⟩ : SKey), (⟨i, 1⟩ : SKey)) = 0 := by
          refine List.count_eq_zero.mpr (fun hmem => ?_)
          have hb := (hliE _ hmem).2.1
          simp [hm] at hb
        rw [hzero]
        simp
    · have hj2m : j2 < m := by omega
      rw [getD_append_lt _ _ hj2m] at hev
      obtain ⟨hfv, hfi, htv, hti, hcf, hct⟩ := hcnt j2 hj2m ev hev
      refine ⟨hfv, hfi, htv, hti, ?_, ?_⟩
      · intro lf hlf
        by_cases hfe : ev.fromN = (⟨i, 1⟩ : SKey)
        · rw [hfe, secGet_secSet_self] at hlf
          obtain rfl : lf = lo ++ [(⟨m, 1⟩, ⟨j, 1⟩)] := by simpa using hlf.symm
          rw [List.count_append]
          have h1 : lo.count ((⟨j2, 1⟩ : SKey), ev.toN) = 1 := hcf lo (hfe ▸ hlo)
          have hzero : ([((⟨m, 1⟩ : SKey), (⟨j, 1⟩ : SKey))] :
              List (SKey × SKey)).count ((⟨j2, 1⟩ : SKey), ev.toN) = 0 := by
            refine List.count_eq_zero.mpr (fun hmem => ?_)
            have := List.mem_singleton.mp hmem
            have : (⟨j2, 1⟩ : SKey) = (⟨m, 1⟩ : SKey) := (Prod.mk.injEq _ _ _ _ ▸ this).1
            simp at this
            omega
          omega
        · have hne : (⟨i, 1⟩ : SKey).idx ≠ ev.fromN.idx := fun he => hfe (by
            cases hevf : ev.fromN
            rw [hevf] at he hfv
            simp at he hfv
            simp [← he, hfv])
          rw [secGet_secSet_ne_idx _ hne] at hlf
          exact hcf lf hlf
      · intro lt2 hlt
        by_cases hte : ev.toN = (⟨j, 1⟩ : SKey)
        · rw [hte, secGet_secSet_self] at hlt
          obtain rfl : lt2 = li ++ [(⟨m, 1⟩, ⟨i, 1⟩)] := by simpa using hlt.symm
          rw [List.count_append]
          have h1 : li.count ((⟨j2, 1⟩ : SKey), ev.fromN) = 1 := hct li (hte ▸ hli)
          have hzero : ([((⟨m, 1⟩ : SKey), (⟨i, 1⟩ : SKey))] :
              List (SKey × SKey)).count ((⟨j2, 1⟩ : SKey), ev.fromN) = 0 := by
            refine List.count_eq_zero.mpr (fun hmem => ?_)
            have := List.mem_singleton.mp hmem
            have : (⟨j2, 1⟩ : SKey) = (⟨m, 1⟩ : SKey) := (Prod.mk.injEq _ _ _ _ ▸ this).1
            simp at this
            omega
          omega
        · have hne : (⟨j, 1⟩ : SKey).idx ≠ ev.toN.idx := fun he => hte (by
            cases hevt : ev.toN
            rw [hevt] at he htv
            simp at he htv
            simp [← he, htv])
          rw [secGet_secSet_ne_idx _ hne] at hlt
          exact hct lt2 hlt

theorem AGInv_step {st : AGSt N E} (h : AGInv st) (op : AGOp N E) : AGInv (agStep st op) := by
  cases op with
  | insN v => exact AGInv_insN h v
  | insE i j v => exact AGInv_insE h i j v

theorem AGInv_agRun (ops : List (AGOp N E)) : AGInv (agRun ops) := by
  suffices h : ∀ st, AGInv st → AGInv (ops.foldl agStep st) from h _ AGInv_empty
  induction ops with
  | nil => exact fun st h => h
  | cons op ops ih => exact fun st h => ih _ (AGInv_step h op)

theorem AGInv_consistency {st : AGSt N E} (h : AGInv st) {e f t : SKey}
    (he : getEdgeNodes st.ag.sg e = some (f, t)) :
    ∃ lo li, secGet st.ag.adjOut f = some lo ∧ secGet st.ag.adjIn t = some li ∧
      lo.count (e, t) = 1 ∧ li.count (e, f) = 1 ∧
      outEdges st.ag f = some (lo.map Prod.fst) ∧
      outNodes st.ag f = some (lo.map Prod.snd) ∧
      inEdges st.ag t = some (li.map Prod.fst) ∧
      inNodes st.ag t = some (li.map Prod.snd) ∧
      (lo.map (fun p => p.1.idx)).Pairwise (· < ·) ∧
      (li.map (fun p => p.1.idx)).Pairwise (· < ·) := by
  obtain ⟨hns, hnfree, hefree, hever, hout, hin, hcnt⟩ := h
  obtain ⟨ev, hev, hp⟩ := getEdgeNodes_some_iff.mp he
  have hidx := smGet_idx_lt hev
  have hspec := smGet_spec hev
  have hmem : st.ag.sg.edges.slots.getD e.idx noSlot ∈ st.ag.sg.edges.slots := by
    rw [List.getD_eq_getElem _ _ hidx]
    exact List.getElem_mem _
  have hv1 : (st.ag.sg.edges.slots.getD e.idx noSlot).version = 1 := (hever _ hmem).1
  have hever1 : e.ver = 1 := by
    rw [← hspec.1]
    exact hv1
  obtain ⟨hfv, hfi, htv, hti, hcf, hct⟩ := hcnt e.idx hidx ev hspec.2
  have hpf : ev.fromN = f := (Prod.mk.injEq _ _ _ _ ▸ hp).1
  have hpt : ev.toN = t := (Prod.mk.injEq _ _ _ _ ▸ hp).2
  have hfver : f.ver = 1 := by rw [← hpf]; exact hfv
  have htver : t.ver = 1 := by rw [← hpt]; exact htv
  obtain ⟨lo, hlo, hloE, hloP⟩ := hout f.idx (by rw [← hpf]; exact hfi)
  obtain ⟨li, hli, hliE, hliP⟩ := hin t.idx (by rw [← hpt]; exact hti)
  have hkf : (⟨f.idx, 1⟩ : SKey) = f := by cases f; simp_all
  have hkt : (⟨t.idx, 1⟩ : SKey) = t := by cases t; simp_all
  have hke : (⟨e.idx, 1⟩ : SKey) = e := by cases e; simp_all
  rw [hkf] at hlo
  rw [hkt] at hli
  have hlo2 : secGet st.ag.adjOut ev.fromN = some lo := by rw [hpf]; exact hlo
  have hli2 : secGet st.ag.adjIn ev.toN = some li := by rw [hpt]; exact hli
  have hco := hcf lo hlo2
  have hci := hct li hli2
  rw [hke, hpt] at hco
  rw [hke, hpf] at hci
  refine ⟨lo, li, hlo, hli, hco, hci, ?_, ?_, ?_, ?_, hloP, hliP⟩
  · unfold outEdges
    rw [hlo]
    rfl
  · unfold outNodes
    rw [hlo]
    rfl
  · unfold inEdges
    rw [hli]
    rfl
  · unfold inNodes
    rw [hli]
    rfl

end AGLemmas

/-! ## Claim theorems -/

/-- Claim C1: for every finite sequence of insert/remove operations on an
arena (the node arena and the edge arena of the two-arena `SlotGraph`
delegate every operation to such an arena), a handle returned by an
insert is found (`get` returns the inserted value) until it is removed;
removing a live handle returns its value and leaves the handle stale;
and a stale handle stays stale under every further operation sequence
(including insertions that reuse its slot index), with `get` and
`remove` on it returning `none` forever afterwards. -/
theorem slotmap_handle_freshness {α : Type} (m : SM α) (ops : List (SMOp α)) (k : SKey)
    (v : α) (hwf : SMWF m) :
    smGet (smInsert m v).1 (smInsert m v).2 = some v ∧
    (smGet m k = some v → SMOp.rem k ∉ ops → smGet (smRun m ops) k = some v) ∧
    (smGet m k = some v → (smRemove m k).2 = some v ∧ Stale (smRemove m k).1 k) ∧
    (Stale m k → smGet (smRun m ops) k = none ∧ (smRemove (smRun m ops) k).2 = none) := by
  refine ⟨smInsert_get m v, ?_, ?_, ?_⟩
  · intro h hops
    exact smGet_smRun_of_live hwf h hops
  · intro h
    exact smRemove_of_live h
  · intro h
    have hst := stale_smRun h ops
    refine ⟨stale_smGet hst, ?_⟩
    rw [stale_smRemove hst]

/-- Witness for C1 at a concrete arena holding one value. -/
theorem slotmap_handle_freshness_witness :
    SMWF (⟨[⟨1, some 5⟩], []⟩ : SM Nat) ∧
    (smGet (smInsert (⟨[⟨1, some 5⟩], []⟩ : SM Nat) 5).1
        (smInsert (⟨[⟨1, some 5⟩], []⟩ : SM Nat) 5).2 = some 5 ∧
      (smGet (⟨[⟨1, some 5⟩], []⟩ : SM Nat) ⟨0, 1⟩ = some 5 →
        SMOp.rem ⟨0, 1⟩ ∉ [SMOp.ins 7] →
        smGet (smRun (⟨[⟨1, some 5⟩], []⟩ : SM Nat) [SMOp.ins 7]) ⟨0, 1⟩ = some 5) ∧
      (smGet (⟨[⟨1, some 5⟩], []⟩ : SM Nat) ⟨0, 1⟩ = some 5 →
        (smRemove (⟨[⟨1, some 5⟩], []⟩ : SM Nat) ⟨0, 1⟩).2 = some 5 ∧
          Stale (smRemove (⟨[⟨1, some 5⟩], []⟩ : SM Nat) ⟨0, 1⟩).1 ⟨0, 1⟩) ∧
      (Stale (⟨[⟨1, some 5⟩], []⟩ : SM Nat) ⟨0, 1⟩ →
        smGet (smRun (⟨[⟨1, some 5⟩], []⟩ : SM Nat) [SMOp.ins 7]) ⟨0, 1⟩ = none ∧
          (smRemove (smRun (⟨[⟨1, some 5⟩], []⟩ : SM Nat) [SMOp.ins 7]) ⟨0, 1⟩).2 = none)) :=
  ⟨by decide, slotmap_handle_freshness ⟨[⟨1, some 5⟩], []⟩ [SMOp.ins 7] ⟨0, 1⟩ 5 (by decide)⟩

/-- Claim C3: on every graph state and for all node keys `from`/`to`, live or
not, `insert_edge` succeeds and returns a key under which `get_edge`
finds the value and `get_edge_nodes` finds exactly the given pair. -/
theorem insert_edge_unchecked {N E : Type} (g : SlotGraph N E) (f t : SKey) (v : E) :
    getEdge (insertEdge g f t v).1 (insertEdge g f t v).2 = some v ∧
    getEdgeNodes (insertEdge g f t v).1 (insertEdge g f t v).2 = some (f, t) := by
  have h := smInsert_get g.edges (⟨f, t, v⟩ : EdgeValue E)
  constructor
  · show (smGet (smInsert g.edges ⟨f, t, v⟩).1 (smInsert g.edges ⟨f, t, v⟩).2).map
      EdgeValue.value = some v
    rw [h]
    rfl
  · show (smGet (smInsert g.edges ⟨f, t, v⟩).1 (smInsert g.edges ⟨f, t, v⟩).2).map
      (fun e => (e.fromN, e.toN)) = some (f, t)
    rw [h]
    rfl

/-- Claim C4: `remove_node` leaves the edge arena unchanged — `edge_len`,
`get_edge` and `get_edge_nodes` are the same before and after — and a
removed live node key is afterwards not found by `get_node`, so an edge
keeping it as endpoint dangles. -/
theorem remove_node_edge_frame {N E : Type} (g : SlotGraph N E) (n : SKey) :
    (removeNode g n).1.edges = g.edges ∧
    edgeLen (removeNode g n).1 = edgeLen g ∧
    (∀ e, getEdge (removeNode g n).1 e = getEdge g e) ∧
    (∀ e, getEdgeNodes (removeNode g n).1 e = getEdgeNodes g e) ∧
    (smContains g.nodes n = true → getNode (removeNode g n).1 n = none) := by
  refine ⟨rfl, rfl, fun e => rfl, fun e => rfl, ?_⟩
  intro h
  unfold smContains at h
  cases hg : smGet g.nodes n with
  | none => rw [hg] at h; exact absurd h (by simp)
  | some v =>
      have hst := (smRemove_of_live hg).2
      exact stale_smGet hst

/-- Witness for C4 at a graph with one node and one self-loop edge on
it: after removing the node, the edge is intact but its endpoint is
dangling. -/
theorem remove_node_edge_frame_witness :
    smContains (⟨⟨[⟨1, some 10⟩], []⟩, ⟨[⟨1, some ⟨⟨0, 1⟩, ⟨0, 1⟩, 7⟩⟩], []⟩⟩ :
        SlotGraph Nat Nat).nodes ⟨0, 1⟩ = true ∧
    getNode ((removeNode (⟨⟨[⟨1, some 10⟩], []⟩, ⟨[⟨1, some ⟨⟨0, 1⟩, ⟨0, 1⟩, 7⟩⟩], []⟩⟩ :
        SlotGraph Nat Nat) ⟨0, 1⟩).1) ⟨0, 1⟩ = none :=
  ⟨by decide,
    (remove_node_edge_frame (⟨⟨[⟨1, some 10⟩], []⟩, ⟨[⟨1, some ⟨⟨0, 1⟩, ⟨0, 1⟩, 7⟩⟩], []⟩⟩ :
      SlotGraph Nat Nat) ⟨0, 1⟩).2.2.2.2 (by decide)⟩

/-- Claim C5: as long as an edge key is live, `get_edge_nodes` returns the
exact endpoint pair given at creation, whatever other operations run on
the graph — node insertions/removals, other edge insertions/removals,
and the mutation entry points (`get_node_mut`, `get_edge_mut`,
`iter_nodes_mut`, `iter_edges_mut`), none of which can touch stored
endpoints. -/
theorem edge_endpoints_immutable {N E : Type} (g : SlotGraph N E) (ops : List (GOp N E))
    (ek : SKey) (p : SKey × SKey) (hwf : SMWF g.edges)
    (h : getEdgeNodes g ek = some p) (hops : GOp.remEdge ek ∉ ops) :
    getEdgeNodes (gRun g ops) ek = some p :=
  getEdgeNodes_gRun hwf h hops

/-- Witness for C5 at a one-edge graph under a node insertion, a
removal of a different edge key, and an edge-value mutation. -/
theorem edge_endpoints_immutable_witness :
    SMWF (⟨⟨[], []⟩, ⟨[⟨1, some ⟨⟨3, 1⟩, ⟨4, 1⟩, 7⟩⟩], []⟩⟩ :
        SlotGraph Nat Nat).edges ∧
    getEdgeNodes (⟨⟨[], []⟩, ⟨[⟨1, some ⟨⟨3, 1⟩, ⟨4, 1⟩, 7⟩⟩], []⟩⟩ :
        SlotGraph Nat Nat) ⟨0, 1⟩ = some (⟨3, 1⟩, ⟨4, 1⟩) ∧
    GOp.remEdge ⟨0, 1⟩ ∉
        ([GOp.insNode 2, GOp.remEdge ⟨5, 1⟩, GOp.mutEdge ⟨0, 1⟩ (fun x => x + 1)] :
          List (GOp Nat Nat)) ∧
    getEdgeNodes (gRun (⟨⟨[], []⟩, ⟨[⟨1, some ⟨⟨3, 1⟩, ⟨4, 1⟩, 7⟩⟩], []⟩⟩ :
        SlotGraph Nat Nat)
        [GOp.insNode 2, GOp.remEdge ⟨5, 1⟩, GOp.mutEdge ⟨0, 1⟩ (fun x => x + 1)])
      ⟨0, 1⟩ = some (⟨3, 1⟩, ⟨4, 1⟩) := by
  refine ⟨by decide, by decide, ?_, ?_⟩
  · simp
  · exact edge_endpoints_immutable _ _ ⟨0, 1⟩ (⟨3, 1⟩, ⟨4, 1⟩) (by decide) (by decide)
      (by simp)

/-- Claim C6 counterexample: `AdjGraph::insert_edge` on node keys the index
does not track hits `unwrap` on `None` — a panic (modelled as `none`),
not an absence result.  At the concrete input: the empty index and the
never-issued key `⟨0, 1⟩`. -/
theorem adj_insert_edge_untracked_fatal :
    adjInsertEdge (adjEmpty (N := Nat) (E := Nat)) ⟨0, 1⟩ ⟨0, 1⟩ 0 = none := rfl

/-- Claim C6 amended: every lookup/removal given a stale, removed or
never-issued handle reports absence via an `Option`/empty result and
mutates nothing, and the `AdjGraph` adjacency queries report absence on
untracked keys; but `AdjGraph::insert_edge` on untracked keys is fatal
(`unwrap` panic, modelled as `none`), in addition to the documented
count ceilings. -/
theorem absence_reporting {N E : Type} (g : SlotGraph N E) (ag : AdjGraph N E)
    (k f t : SKey) (v : E) :
    (smContains g.nodes k = false → getNode g k = none ∧ removeNode g k = (g, none)) ∧
    (smContains g.edges k = false →
      getEdge g k = none ∧ getEdgeNodes g k = none ∧ removeEdge g k = (g, none)) ∧
    (secGet ag.adjOut f = none →
      outEdges ag f = none ∧ outNodes ag f = none ∧ adjInsertEdge ag f t v = none) ∧
    (secGet ag.adjIn t = none →
      inEdges ag t = none ∧ inNodes ag t = none ∧ adjInsertEdge ag f t v = none) := by
  refine ⟨?_, ?_, ?_, ?_⟩
  · intro h
    have hget := smContains_false_get h
    refine ⟨hget, ?_⟩
    show ({ g with nodes := (smRemove g.nodes k).1 }, (smRemove g.nodes k).2) = (g, none)
    rw [smRemove_of_not_found hget]
  · intro h
    have hget := smContains_false_get h
    refine ⟨?_, ?_, ?_⟩
    · show (smGet g.edges k).map EdgeValue.value = none
      rw [hget]
      rfl
    · show (smGet g.edges k).map (fun e => (e.fromN, e.toN)) = none
      rw [hget]
      rfl
    · show ({ g with edges := (smRemove g.edges k).1 },
        ((smRemove g.edges k).2).map EdgeValue.value) = (g, none)
      rw [smRemove_of_not_found hget]
      rfl
  · intro h
    refine ⟨?_, ?_, ?_⟩
    · unfold outEdges
      rw [h]
      rfl
    · unfold outNodes
      rw [h]
      rfl
    · unfold adjInsertEdge
      rw [h]
  · intro h
    refine ⟨?_, ?_, ?_⟩
    · unfold inEdges
      rw [h]
      rfl
    · unfold inNodes
      rw [h]
      rfl
    · unfold adjInsertEdge
      cases hout : secGet ag.adjOut f with
      | none => rfl
      | some lo => rw [h]

/-- Witness for the amended C6 at the empty graph and empty index with
the never-issued key `⟨0, 1⟩`. -/
theorem absence_reporting_witness :
    smContains (sgEmpty (N := Nat) (E := Nat)).nodes ⟨0, 1⟩ = false ∧
    getNode (sgEmpty (N := Nat) (E := Nat)) ⟨0, 1⟩ = none ∧
    secGet (adjEmpty (N := Nat) (E := Nat)).adjOut ⟨0, 1⟩ = none ∧
    outEdges (adjEmpty (N := Nat) (E := Nat)) ⟨0, 1⟩ = none ∧
    adjInsertEdge (adjEmpty (N := Nat) (E := Nat)) ⟨0, 1⟩ ⟨0, 1⟩ 5 = none := by
  have h := absence_reporting (sgEmpty (N := Nat) (E := Nat)) adjEmpty ⟨0, 1⟩ ⟨0, 1⟩ ⟨0, 1⟩ 5
  exact ⟨by decide, (h.1 (by decide)).1, rfl, (h.2.2.1 rfl).1, (h.2.2.1 rfl).2.2⟩

/-- Claim C7: the four adjacency queries return `none` exactly on keys with
no tracked adjacency entry; on tracked keys they return the projections
of the stored adjacency list (in stored order); and a node freshly
inserted through the index is tracked with all four queries returning
an empty sequence, distinguishable from the `none` of an unknown key. -/
theorem adjacency_query_semantics {N E : Type} (ag : AdjGraph N E) (k : SKey) (v : N)
    (lo li : List (SKey × SKey)) :
    (secGet ag.adjOut k = none → outEdges ag k = none ∧ outNodes ag k = none) ∧
    (secGet ag.adjIn k = none → inEdges ag k = none ∧ inNodes ag k = none) ∧
    (secGet ag.adjOut k = some lo →
      outEdges ag k = some (lo.map Prod.fst) ∧ outNodes ag k = some (lo.map Prod.snd)) ∧
    (secGet ag.adjIn k = some li →
      inEdges ag k = some (li.map Prod.fst) ∧ inNodes ag k = some (li.map Prod.snd)) ∧
    (outEdges (adjInsertNode ag v).1 (adjInsertNode ag v).2 = some [] ∧
      outNodes (adjInsertNode ag v).1 (adjInsertNode ag v).2 = some [] ∧
      inEdges (adjInsertNode ag v).1 (adjInsertNode ag v).2 = some [] ∧
      inNodes (adjInsertNode ag v).1 (adjInsertNode ag v).2 = some []) := by
  refine ⟨?_, ?_, ?_, ?_, ?_, ?_, ?_, ?_⟩
  · intro h
    constructor
    · unfold outEdges; rw [h]; rfl
    · unfold outNodes; rw [h]; rfl
  · intro h
    constructor
    · unfold inEdges; rw [h]; rfl
    · unfold inNodes; rw [h]; rfl
  · intro h
    constructor
    · unfold outEdges; rw [h]; rfl
    · unfold outNodes; rw [h]; rfl
  · intro h
    constructor
    · unfold inEdges; rw [h]; rfl
    · unfold inNodes; rw [h]; rfl
  · show (secGet (secSet ag.adjOut (insertNode ag.sg v).2 [])
        (insertNode ag.sg v).2).map (fun l => l.map Prod.fst) = some []
    rw [secGet_secSet_self]
    rfl
  · show (secGet (secSet ag.adjOut (insertNode ag.sg v).2 [])
        (insertNode ag.sg v).2).map (fun l => l.map Prod.snd) = some []
    rw [secGet_secSet_self]
    rfl
  · show (secGet (secSet ag.adjIn (insertNode ag.sg v).2 [])
        (insertNode ag.sg v).2).map (fun l => l.map Prod.fst) = some []
    rw [secGet_secSet_self]
    rfl
  · show (secGet (secSet ag.adjIn (insertNode ag.sg v).2 [])
        (insertNode ag.sg v).2).map (fun l => l.map Prod.snd) = some []
    rw [secGet_secSet_self]
    rfl

/-- Witness for C7: the empty index reports `none` for an unknown key;
after one node insertion the new key reports empty sequences. -/
theorem adjacency_query_semantics_witness :
    outEdges (adjEmpty (N := Nat) (E := Nat)) ⟨0, 1⟩ = none ∧
    outEdges (adjInsertNode (adjEmpty (N := Nat) (E := Nat)) 3).1
      (adjInsertNode (adjEmpty (N := Nat) (E := Nat)) 3).2 = some [] ∧
    inNodes (adjInsertNode (adjEmpty (N := Nat) (E := Nat)) 3).1
      (adjInsertNode (adjEmpty (N := Nat) (E := Nat)) 3).2 = some [] := by
  have h := adjacency_query_semantics (adjEmpty (N := Nat) (E := Nat)) ⟨0, 1⟩ 3 [] []
  exact ⟨(h.1 rfl).1, h.2.2.2.2.1, h.2.2.2.2.2.2.2⟩

/-- Claim C8 (code-bug evaluation): after inserting two nodes and the edge
`a → b` in the `src/lib.rs` graph, `contains_edge(a, b)` returns
`false`: the source tests `n == from` instead of `n == to` over
`from`'s outgoing list (and never uses `to`), contradicting its own doc
comment "Returns `true` if the graph cotnains an edge from `from` to
`to`". -/
theorem contains_edge_bug_eval :
    Lib.insertEdge (Lib.libRun (V := Nat) [Lib.LibOp.insN 0, Lib.LibOp.insN 0]) ⟨0, 1⟩ ⟨1, 1⟩
      = Except.ok (Lib.libRun (V := Nat)
          [Lib.LibOp.insN 0, Lib.LibOp.insN 0, Lib.LibOp.insE ⟨0, 1⟩ ⟨1, 1⟩]) ∧
    Lib.containsEdge (Lib.libRun (V := Nat)
        [Lib.LibOp.insN 0, Lib.LibOp.insN 0, Lib.LibOp.insE ⟨0, 1⟩ ⟨1, 1⟩]) ⟨0, 1⟩ ⟨1, 1⟩
      = false :=
  ⟨rfl, by decide⟩

/-- Claim C9: in the `src/lib.rs` graph, every reachable state satisfies the
matched-pair invariant (occurrences of `b` in `a`'s outgoing list equal
occurrences of `a` in `b`'s incoming list, for all keys); a successful
`insert_edge(a, b)` adds exactly one matched pair and changes no other
count; a successful `remove_edge(a, b)` either changes nothing or
removes exactly one matched pair, never one side only. -/
theorem lib_matched_pairs {V : Type} (ops : List (Lib.LibOp V)) (g g2 : LibGraph V)
    (f t : SKey) :
    Lib.countInv (Lib.libRun ops) ∧
    (Lib.insertEdge g f t = Except.ok g2 →
      (∀ a b, Lib.countOut g2 a b = Lib.countOut g a b + (if (a, b) = (f, t) then 1 else 0)) ∧
      (∀ b a, Lib.countIn g2 b a = Lib.countIn g b a + (if (b, a) = (t, f) then 1 else 0))) ∧
    (Lib.removeEdge g f t = Except.ok g2 →
      g2 = g ∨
      ((∀ a b, Lib.countOut g2 a b + (if (a, b) = (f, t) then 1 else 0) = Lib.countOut g a b) ∧
        (∀ b a, Lib.countIn g2 b a + (if (b, a) = (t, f) then 1 else 0) = Lib.countIn g b a))) :=
  ⟨(libRun_inv ops).2, fun h => insertEdge_deltas h, fun h => removeEdge_deltas h⟩

/-- Witness for C9 on two nodes and one inserted edge. -/
theorem lib_matched_pairs_witness :
    Lib.insertEdge (Lib.libRun (V := Nat) [Lib.LibOp.insN 0, Lib.LibOp.insN 0]) ⟨0, 1⟩ ⟨1, 1⟩
      = Except.ok (Lib.libRun (V := Nat)
          [Lib.LibOp.insN 0, Lib.LibOp.insN 0, Lib.LibOp.insE ⟨0, 1⟩ ⟨1, 1⟩]) ∧
    Lib.countOut (Lib.libRun (V := Nat)
        [Lib.LibOp.insN 0, Lib.LibOp.insN 0, Lib.LibOp.insE ⟨0, 1⟩ ⟨1, 1⟩]) ⟨0, 1⟩ ⟨1, 1⟩ =
      Lib.countOut (Lib.libRun (V := Nat) [Lib.LibOp.insN 0, Lib.LibOp.insN 0]) ⟨0, 1⟩ ⟨1, 1⟩ +
        (if ((⟨0, 1⟩ : SKey), (⟨1, 1⟩ : SKey)) = ((⟨0, 1⟩ : SKey), (⟨1, 1⟩ : SKey))
          then 1 else 0) ∧
    Lib.countOut (Lib.libRun (V := Nat)
        [Lib.LibOp.insN 0, Lib.LibOp.insN 0, Lib.LibOp.insE ⟨0, 1⟩ ⟨1, 1⟩]) ⟨0, 1⟩ ⟨1, 1⟩ =
      Lib.countIn (Lib.libRun (V := Nat)
        [Lib.LibOp.insN 0, Lib.LibOp.insN 0, Lib.LibOp.insE ⟨0, 1⟩ ⟨1, 1⟩]) ⟨1, 1⟩ ⟨0, 1⟩ := by
  have h := lib_matched_pairs
    [Lib.LibOp.insN 0, Lib.LibOp.insN 0, Lib.LibOp.insE ⟨0, 1⟩ ⟨1, 1⟩]
    (Lib.libRun (V := Nat) [Lib.LibOp.insN 0, Lib.LibOp.insN 0])
    (Lib.libRun (V := Nat) [Lib.LibOp.insN 0, Lib.LibOp.insN 0, Lib.LibOp.insE ⟨0, 1⟩ ⟨1, 1⟩])
    ⟨0, 1⟩ ⟨1, 1⟩
  exact ⟨rfl, (h.2.1 rfl).1 ⟨0, 1⟩ ⟨1, 1⟩, h.1 ⟨0, 1⟩ ⟨1, 1⟩⟩

/-- Claim C10: after a successful `insert_edge(a, b)` in the `src/lib.rs`
graph, `iter_out(a)` contains `b` and `iter_in(b)` contains `a`, while
`iter_in(a)` and `iter_out(b)` are unchanged for `a ≠ b`: `iter_out`
enumerates the nodes `n` points to and `iter_in` the nodes pointing to
`n`.  (The source's doc comments and its `simple` test state the
swapped orientation; the implementation behaves as proved here.) -/
theorem lib_iter_directions {V : Type} (g g2 : LibGraph V) (a b : SKey)
    (h : Lib.insertEdge g a b = Except.ok g2) :
    (∃ l, Lib.iterOut g2 a = some l ∧ b ∈ l) ∧
    (∃ l, Lib.iterIn g2 b = some l ∧ a ∈ l) ∧
    (a ≠ b → Lib.iterIn g2 a = Lib.iterIn g a ∧ Lib.iterOut g2 b = Lib.iterOut g b) := by
  unfold Lib.insertEdge at h
  cases hlo : secGet g.adjOut a with
  | none =>
      simp only [hlo] at h
      exact absurd h (by simp)
  | some lo =>
      simp only [hlo] at h
      cases hli : secGet g.adjIn b with
      | none =>
          simp only [hli] at h
          exact absurd h (by simp)
      | some li =>
          simp only [hli, Except.ok.injEq] at h
          subst h
          refine ⟨⟨lo ++ [b], ?_, ?_⟩, ⟨li ++ [a], ?_, ?_⟩, ?_⟩
          · show secGet (secSet g.adjOut a (lo ++ [b])) a = _
            exact secGet_secSet_self _ _ _
          · exact List.mem_append_right lo (List.mem_singleton_self b)
          · show secGet (secSet g.adjIn b (li ++ [a])) b = _
            exact secGet_secSet_self _ _ _
          · exact List.mem_append_right li (List.mem_singleton_self a)
          · intro hne
            constructor
            · show secGet (secSet g.adjIn b (li ++ [a])) a = secGet g.adjIn a
              by_cases hidx : b.idx = a.idx
              · have hver : b.ver ≠ a.ver := fun hv => hne (by cases a; cases b; simp_all)
                rw [secGet_secSet_same_idx_ne _ hidx hver,
                  secGet_ver_unique hli hidx hver]
              · rw [secGet_secSet_ne_idx _ hidx]
            · show secGet (secSet g.adjOut a (lo ++ [b])) b = secGet g.adjOut b
              by_cases hidx : a.idx = b.idx
              · have hver : a.ver ≠ b.ver := fun hv => hne (by cases a; cases b; simp_all)
                rw [secGet_secSet_same_idx_ne _ hidx hver,
                  secGet_ver_unique hlo hidx hver]
              · rw [secGet_secSet_ne_idx _ hidx]

/-- Witness for C10 on two nodes and one inserted edge. -/
theorem lib_iter_directions_witness :
    Lib.insertEdge (Lib.libRun (V := Nat) [Lib.LibOp.insN 0, Lib.LibOp.insN 0]) ⟨0, 1⟩ ⟨1, 1⟩
      = Except.ok (Lib.libRun (V := Nat)
          [Lib.LibOp.insN 0, Lib.LibOp.insN 0, Lib.LibOp.insE ⟨0, 1⟩ ⟨1, 1⟩]) ∧
    (∃ l, Lib.iterOut (Lib.libRun (V := Nat)
        [Lib.LibOp.insN 0, Lib.LibOp.insN 0, Lib.LibOp.insE ⟨0, 1⟩ ⟨1, 1⟩]) ⟨0, 1⟩ = some l ∧
      (⟨1, 1⟩ : SKey) ∈ l) ∧
    (∃ l, Lib.iterIn (Lib.libRun (V := Nat)
        [Lib.LibOp.insN 0, Lib.LibOp.insN 0, Lib.LibOp.insE ⟨0, 1⟩ ⟨1, 1⟩]) ⟨1, 1⟩ = some l ∧
      (⟨0, 1⟩ : SKey) ∈ l) ∧
    ((⟨0, 1⟩ : SKey) ≠ (⟨1, 1⟩ : SKey) →
      Lib.iterIn (Lib.libRun (V := Nat)
          [Lib.LibOp.insN 0, Lib.LibOp.insN 0, Lib.LibOp.insE ⟨0, 1⟩ ⟨1, 1⟩]) ⟨0, 1⟩ =
        Lib.iterIn (Lib.libRun (V := Nat) [Lib.LibOp.insN 0, Lib.LibOp.insN 0]) ⟨0, 1⟩ ∧
      Lib.iterOut (Lib.libRun (V := Nat)
          [Lib.LibOp.insN 0, Lib.LibOp.insN 0, Lib.LibOp.insE ⟨0, 1⟩ ⟨1, 1⟩]) ⟨1, 1⟩ =
        Lib.iterOut (Lib.libRun (V := Nat) [Lib.LibOp.insN 0, Lib.LibOp.insN 0]) ⟨1, 1⟩) := by
  have h := lib_iter_directions
    (Lib.libRun (V := Nat) [Lib.LibOp.insN 0, Lib.LibOp.insN 0])
    (Lib.libRun (V := Nat) [Lib.LibOp.insN 0, Lib.LibOp.insN 0, Lib.LibOp.insE ⟨0, 1⟩ ⟨1, 1⟩])
    ⟨0, 1⟩ ⟨1, 1⟩ rfl
  exact ⟨rfl, h.1, h.2.1, h.2.2⟩

/-- Claim C2: after any finite sequence of `insert_node`/`insert_edge` calls
made exclusively through the `AdjGraph` index, every live edge `E`
inserted as `(from, to)` occurs exactly once as `(E, to)` in `from`'s
outgoing adjacency list and exactly once as `(E, from)` in `to`'s
incoming list; `out_edges`/`out_nodes` (resp. `in_edges`/`in_nodes`)
observe exactly the projections of those lists; and entries stand in
edge-insertion order (strictly increasing edge slot indices — each
insertion appends the freshly issued edge key). -/
theorem adjacency_index_consistency {N E : Type} (ops : List (AGOp N E)) (e f t : SKey)
    (he : getEdgeNodes (agRun ops).ag.sg e = some (f, t)) :
    ∃ lo li, secGet (agRun ops).ag.adjOut f = some lo ∧
      secGet (agRun ops).ag.adjIn t = some li ∧
      lo.count (e, t) = 1 ∧ li.count (e, f) = 1 ∧
      outEdges (agRun ops).ag f = some (lo.map Prod.fst) ∧
      outNodes (agRun ops).ag f = some (lo.map Prod.snd) ∧
      inEdges (agRun ops).ag t = some (li.map Prod.fst) ∧
      inNodes (agRun ops).ag t = some (li.map Prod.snd) ∧
      (lo.map (fun p => p.1.idx)).Pairwise (· < ·) ∧
      (li.map (fun p => p.1.idx)).Pairwise (· < ·) :=
  AGInv_consistency (AGInv_agRun ops) he

/-- Witness for C2: two nodes and one edge inserted through the index. -/
theorem adjacency_index_consistency_witness :
    getEdgeNodes (agRun (N := Nat) (E := Nat)
        [AGOp.insN 7, AGOp.insN 8, AGOp.insE 0 1 5]).ag.sg ⟨0, 1⟩
      = some (⟨0, 1⟩, ⟨1, 1⟩) ∧
    (∃ lo li,
      secGet (agRun (N := Nat) (E := Nat)
          [AGOp.insN 7, AGOp.insN 8, AGOp.insE 0 1 5]).ag.adjOut ⟨0, 1⟩ = some lo ∧
      secGet (agRun (N := Nat) (E := Nat)
          [AGOp.insN 7, AGOp.insN 8, AGOp.insE 0 1 5]).ag.adjIn ⟨1, 1⟩ = some li ∧
      lo.count (⟨0, 1⟩, ⟨1, 1⟩) = 1 ∧ li.count (⟨0, 1⟩, ⟨0, 1⟩) = 1 ∧
      outEdges (agRun (N := Nat) (E := Nat)
          [AGOp.insN 7, AGOp.insN 8, AGOp.insE 0 1 5]).ag ⟨0, 1⟩ = some (lo.map Prod.fst) ∧
      outNodes (agRun (N := Nat) (E := Nat)
          [AGOp.insN 7, AGOp.insN 8, AGOp.insE 0 1 5]).ag ⟨0, 1⟩ = some (lo.map Prod.snd) ∧
      inEdges (agRun (N := Nat) (E := Nat)
          [AGOp.insN 7, AGOp.insN 8, AGOp.insE 0 1 5]).ag ⟨1, 1⟩ = some (li.map Prod.fst) ∧
      inNodes (agRun (N := Nat) (E := Nat)
          [AGOp.insN 7, AGOp.insN 8, AGOp.insE 0 1 5]).ag ⟨1, 1⟩ = some (li.map Prod.snd) ∧
      (lo.map (fun p => p.1.idx)).Pairwise (· < ·) ∧
      (li.map (fun p => p.1.idx)).Pairwise (· < ·)) :=
  ⟨rfl, adjacency_index_consistency [AGOp.insN 7, AGOp.insN 8, AGOp.insE 0 1 5]
    ⟨0, 1⟩ ⟨0, 1⟩ ⟨1, 1⟩ rfl⟩

end Slotgraph
